import Mathlib

/-!
Verification of the gogit object store and tree engine.

The tree engine (`NewTree`, `NewTreeFromInput`, `ParseData`, `Print`,
`DataSize`, `Checkout`) is embedded from the repository's `git/tree.go`.
Go byte slices and Go strings holding raw bytes are modelled as `List Nat`
(each element a byte value); Go's ambient repository lookup `GetRepo(".")`
inside the tree engine is modelled as an explicit store parameter.
Components of the repository whose sources are not available here (object
codec and store, name resolver, ref listing, commit model) are modelled
from the specification; each such definition's doc comment starts with
`Modelled from the spec:`.
-/

namespace Gogit

/-- Byte strings: Go `[]byte` and Go `string` values are byte sequences. -/
abbrev Bytes := List Nat

/-- UTF-8/ASCII bytes of a Lean string (faithful for the ASCII literals used
by the repository: modes, type names, hex digits, file names). -/
def bytesOfAscii (s : String) : Bytes :=
  s.toList.map Char.toNat

/-- ASCII whitespace test, the byte-level restriction of the whitespace
class used by Go `strings.Fields` (space, \t, \n, \v, \f, \r). -/
def isWsB (b : Nat) : Bool :=
  b == 32 || b == 9 || b == 10 || b == 11 || b == 12 || b == 13

/-- Go `bytes.IndexByte`: index of the first occurrence, `none` for Go's -1. -/
def indexOfByte (b : Nat) : Bytes → Option Nat
  | [] => none
  | x :: xs =>
    if x = b then some 0
    else match indexOfByte b xs with
      | some i => some (i + 1)
      | none => none

/-- Go `strings.Split(s, sep)` for a one-element separator. -/
def splitSep {α : Type} [DecidableEq α] (sep : α) : List α → List (List α)
  | [] => [[]]
  | x :: xs =>
    if x = sep then [] :: splitSep sep xs
    else match splitSep sep xs with
      | [] => [[x]]
      | w :: ws => (x :: w) :: ws

/-- Worker for `fieldsAscii`: accumulates the current word in reverse. -/
def fieldsGo : Bytes → Bytes → List Bytes
  | [], acc => if acc = [] then [] else [acc.reverse]
  | b :: rest, acc =>
    if isWsB b then
      if acc = [] then fieldsGo rest []
      else acc.reverse :: fieldsGo rest []
    else fieldsGo rest (b :: acc)

/-- Go `strings.Fields`: split around runs of whitespace. -/
def fieldsAscii (l : Bytes) : List Bytes :=
  fieldsGo l []

/-- Go string `<`: byte-wise lexicographic order. -/
def byteLt : Bytes → Bytes → Bool
  | [], [] => false
  | [], _ :: _ => true
  | _ :: _, [] => false
  | a :: as, b :: bs =>
    if a < b then true
    else if b < a then false
    else byteLt as bs

/-- Value of an ASCII hex digit byte, accepting both cases like Go
`encoding/hex`. -/
def hexVal (b : Nat) : Option Nat :=
  if 48 ≤ b ∧ b ≤ 57 then some (b - 48)
  else if 97 ≤ b ∧ b ≤ 102 then some (b - 87)
  else if 65 ≤ b ∧ b ≤ 70 then some (b - 55)
  else none

/-- Go `hex.DecodeString`: two hex digit bytes per output byte; odd length or
a non-hex byte is an error. -/
def hexDecode : Bytes → Option Bytes
  | [] => some []
  | [_] => none
  | a :: b :: rest =>
    match hexVal a, hexVal b with
    | some x, some y =>
      match hexDecode rest with
      | some d => some ((x * 16 + y) :: d)
      | none => none
    | _, _ => none

/-- Lowercase hex digit byte of a value below 16. -/
def hexDigit (n : Nat) : Nat :=
  if n < 10 then 48 + n else 87 + n

/-- Go `hex.EncodeToString`: two lowercase hex digit bytes per input byte. -/
def hexEncode : Bytes → Bytes
  | [] => []
  | b :: rest => hexDigit (b / 16) :: hexDigit (b % 16) :: hexEncode rest

/-! ### SHA-1

Modelled from the spec: the Codec's `hash` is "a 160-bit cryptographic
digest rendered as 40 lowercase hex characters"; the digest function of the
reference tool (and the one matching the spec's concrete addresses) is
SHA-1.  32-bit words are `Nat` values kept below `2 ^ 32`. -/

/-- Truncate to a 32-bit word. -/
def w32 (n : Nat) : Nat := n % 4294967296

/-- Rotate a 32-bit word left by `k`. -/
def rotl (k n : Nat) : Nat :=
  w32 ((n <<< k) ||| (n >>> (32 - k)))

/-- Split a byte list into chunks of `n` bytes (by fuel on the list length). -/
def chunksAux : Nat → Nat → Bytes → List Bytes
  | 0, _, _ => []
  | _ + 1, _, [] => []
  | fuel + 1, n, l => l.take n :: chunksAux fuel n (l.drop n)

def chunks (n : Nat) (l : Bytes) : List Bytes :=
  chunksAux (l.length + 1) n l

/-- Big-endian 32-bit word from (up to) four bytes. -/
def wordOfBytes : Bytes → Nat
  | a :: b :: c :: d :: _ => ((a * 256 + b) * 256 + c) * 256 + d
  | _ => 0

/-- SHA-1 message padding: 0x80, zeros to 56 mod 64, 8-byte big-endian bit
length. -/
def sha1pad (msg : Bytes) : Bytes :=
  let L := msg.length
  let z := (119 - L % 64) % 64
  let bits := 8 * L
  msg ++ [128] ++ List.replicate z 0 ++
    [w32 (bits / 72057594037927936) % 256, (bits / 281474976710656) % 256,
     (bits / 1099511627776) % 256, (bits / 4294967296) % 256,
     (bits / 16777216) % 256, (bits / 65536) % 256,
     (bits / 256) % 256, bits % 256]

/-- Extend the 16 block words to 80 schedule words.  `acc` holds the words
produced so far, newest first. -/
def sha1schedAux : Nat → Bytes → Bytes
  | 0, acc => acc
  | t + 1, acc =>
    let n := rotl 1 (acc.getD 2 0 ^^^ acc.getD 7 0 ^^^ acc.getD 13 0 ^^^ acc.getD 15 0)
    sha1schedAux t (n :: acc)

/-- The 80 schedule words of one block, in order. -/
def sha1sched (ws : Bytes) : Bytes :=
  (sha1schedAux 64 ws.reverse).reverse

/-- One SHA-1 round: state (a,b,c,d,e), round index `t`, schedule word `wt`. -/
def sha1round (st : Nat × Nat × Nat × Nat × Nat) (t wt : Nat) :
    Nat × Nat × Nat × Nat × Nat :=
  let (a, b, c, d, e) := st
  let f :=
    if t < 20 then (b &&& c) ||| ((4294967295 - b) &&& d)
    else if t < 40 then b ^^^ c ^^^ d
    else if t < 60 then (b &&& c) ||| (b &&& d) ||| (c &&& d)
    else b ^^^ c ^^^ d
  let k :=
    if t < 20 then 1518500249
    else if t < 40 then 1859775393
    else if t < 60 then 2400959708
    else 3395469782
  let tmp := w32 (rotl 5 a + f + e + k + wt)
  (tmp, a, rotl 30 b, c, d)

/-- Run the 80 rounds of one block from state `st`. -/
def sha1rounds (st : Nat × Nat × Nat × Nat × Nat) (ws : Bytes) :
    Nat × Nat × Nat × Nat × Nat :=
  (ws.foldl (fun p wt => (sha1round p.1 p.2 wt, p.2 + 1)) (st, 0)).1

/-- Process one 64-byte block into the running digest. -/
def sha1block (h : Nat × Nat × Nat × Nat × Nat) (blk : Bytes) :
    Nat × Nat × Nat × Nat × Nat :=
  let ws := sha1sched ((chunks 4 blk).map wordOfBytes)
  let (h0, h1, h2, h3, h4) := h
  let (a, b, c, d, e) := sha1rounds h ws
  (w32 (h0 + a), w32 (h1 + b), w32 (h2 + c), w32 (h3 + d), w32 (h4 + e))

/-- Big-endian bytes of a 32-bit word. -/
def bytesOfWord (n : Nat) : Bytes :=
  [n / 16777216 % 256, n / 65536 % 256, n / 256 % 256, n % 256]

/-- SHA-1 digest (20 bytes) of a byte string. -/
def sha1 (msg : Bytes) : Bytes :=
  let init : Nat × Nat × Nat × Nat × Nat :=
    (1732584193, 4023233417, 2562383102, 271733878, 3285377520)
  let (h0, h1, h2, h3, h4) := (chunks 64 (sha1pad msg)).foldl sha1block init
  bytesOfWord h0 ++ bytesOfWord h1 ++ bytesOfWord h2 ++ bytesOfWord h3 ++
    bytesOfWord h4

/-- SHA-1 digest as 40 lowercase hex digit bytes. -/
def sha1hex (msg : Bytes) : Bytes :=
  hexEncode (sha1 msg)

/-! ### Object model and store -/

/-- Error outcomes of the embedded operations.  `oob` models a Go runtime
panic (out-of-range slice index), which is not a returned `error` value;
the other constructors model the typed `error` values the code returns
(`fmt.Errorf` messages carry the offending datum as the constructor
argument). -/
inductive GitErr where
  | malformedType (t : String)
  | malformedMode (m : Bytes)
  | notFound (h : Bytes)
  | hexErr
  | ioErr
  | oob
deriving DecidableEq, Repr

/-- The in-memory object of `git/object.go`: a type tag and the payload. -/
structure GitObject where
  ObjType : String
  ObjData : Bytes
deriving DecidableEq, Repr

/-- `NewObject(objType, data)`. -/
def NewObject (objType : String) (data : Bytes) : GitObject :=
  { ObjType := objType, ObjData := data }

/-- The object store keyed by 40-hex-digit addresses (addresses as ASCII
byte strings). -/
abbrev Store := List (Bytes × GitObject)

/-- First-match association lookup in the store. -/
def findObj : Store → Bytes → Option GitObject
  | [], _ => none
  | (k, v) :: rest, h => if k = h then some v else findObj rest h

/-- Modelled from the spec: `read(address)` of the Object Store — "Fails
with NotFound if no file exists at that exact address."  Stands in for
`repo.ObjectParse`, whose source is not in the excerpt. -/
def objectParse (store : Store) (h : Bytes) : Except GitErr GitObject :=
  match findObj store h with
  | some o => .ok o
  | none => .error (.notFound h)

/-! ### Tree engine (embedded from `git/tree.go`) -/

/-- `TreeEntry` of `tree.go`; `mode`, `name` hold raw bytes, `hash` holds
the 40 hex digit bytes produced by `hex.EncodeToString`. -/
structure TreeEntry where
  mode : Bytes
  hash : Bytes
  objType : String
  name : Bytes
deriving DecidableEq, Repr

/-- `GitTree` of `tree.go`. -/
structure GitTree where
  Obj : GitObject
  Entries : List TreeEntry
deriving DecidableEq, Repr

/-- One pass of `GitTree.ParseData`'s loop on the remaining payload
(`tree.Obj.ObjData[start:]`), by fuel.  Mirrors the Go loop body exactly:
mode up to the first space (no space: `data[0:-1]` panics → `.oob`), mode
length must be 5 or 6, name up to the first NUL (no NUL or NUL before the
space: negative-length slice panics → `.oob`), then exactly 20 raw hash
bytes (fewer: slice out of range panics → `.oob`), hex-encoded and resolved
through the store; the cursor advances by `nameInd + 21`.  Fuel exceeds the
payload length at the call site, and every iteration strictly shrinks the
payload, so fuel exhaustion (also reported `.oob`) is unreachable. -/
def parseLoop : Nat → Store → Bytes → Except GitErr (List TreeEntry)
  | 0, _, _ => .error .oob
  | _ + 1, _, [] => .ok []
  | fuel + 1, store, data =>
    match indexOfByte 32 data with
    | none => .error .oob
    | some spaceInd =>
      let entryMode := data.take spaceInd
      if entryMode.length ≠ 5 ∧ entryMode.length ≠ 6 then
        .error (.malformedMode entryMode)
      else
        match indexOfByte 0 data with
        | none => .error .oob
        | some nameInd =>
          if nameInd < spaceInd + 1 then .error .oob
          else
            let entryName := (data.drop (spaceInd + 1)).take (nameInd - (spaceInd + 1))
            if data.length < nameInd + 21 then .error .oob
            else
              let entryHash := hexEncode ((data.drop (nameInd + 1)).take 20)
              match objectParse store entryHash with
              | .error e => .error e
              | .ok obj =>
                match parseLoop fuel store (data.drop (nameInd + 21)) with
                | .error e => .error e
                | .ok rest =>
                  .ok ({ mode := entryMode, hash := entryHash,
                         objType := obj.ObjType, name := entryName } :: rest)

/-- Insert into a name-sorted entry list, keeping an already ≤-placed
element first (a stable model of the `sort.Slice` comparator
`entries[i].name < entries[j].name`). -/
def insertEntry (e : TreeEntry) : List TreeEntry → List TreeEntry
  | [] => [e]
  | x :: xs =>
    if byteLt x.name e.name then x :: insertEntry e xs
    else e :: x :: xs

/-- The final `sort.Slice(tree.Entries, ...)` of `ParseData`, modelled as a
stable insertion sort with the same comparator. -/
def sortEntries : List TreeEntry → List TreeEntry
  | [] => []
  | e :: es => insertEntry e (sortEntries es)

/-- `GitTree.ParseData`: parse the payload into entries, then sort them by
name.  The Go method finds the repository ambiently via `GetRepo(".")`; the
store is passed explicitly here. -/
def ParseData (store : Store) (data : Bytes) : Except GitErr (List TreeEntry) :=
  match parseLoop (data.length + 1) store data with
  | .ok es => .ok (sortEntries es)
  | .error e => .error e

/-- `NewTree(obj)`: reject a non-tree object, otherwise parse the data. -/
def NewTree (store : Store) (obj : GitObject) : Except GitErr GitTree :=
  if obj.ObjType ≠ "tree" then .error (.malformedType obj.ObjType)
  else
    match ParseData store obj.ObjData with
    | .ok es => .ok { Obj := obj, Entries := es }
    | .error e => .error e

/-- The per-line body of `NewTreeFromInput`'s loop: split the line into
fields, strip leading `0`s from the mode, and emit
`mode ' ' name NUL hash20`.  A line with fewer than four fields makes the
Go code index past the end of `props` (runtime panic → `.oob`);
`hex.DecodeString` failure is the returned error. -/
def buildTreeData : List Bytes → Except GitErr Bytes
  | [] => .ok []
  | line :: rest =>
    if line = [] then buildTreeData rest
    else
      let props := fieldsAscii line
      if props.length < 4 then .error .oob
      else
        match hexDecode (props.getD 2 []) with
        | none => .error .hexErr
        | some byteHash =>
          match buildTreeData rest with
          | .error e => .error e
          | .ok tail =>
            .ok ((props.getD 0 []).dropWhile (· == 48) ++ 32 ::
                 (props.getD 3 []) ++ 0 :: byteHash ++ tail)

/-- `NewTreeFromInput(input)`: build the binary payload from the text
specification (lines split on `"\n"`, empty lines skipped) and hand it to
`NewTree` as a `"tree"` object. -/
def NewTreeFromInput (store : Store) (input : Bytes) : Except GitErr GitTree :=
  match buildTreeData (splitSep 10 input) with
  | .error e => .error e
  | .ok data => NewTree store (NewObject "tree" data)

/-- `GitTree.Type()`. -/
def treeType (_ : GitTree) : String := "tree"

/-- `GitTree.DataSize()`: length of the binary payload. -/
def DataSize (tree : GitTree) : Nat :=
  tree.Obj.ObjData.length

/-- One line of `GitTree.Print()`:
`"%s %s %s\t%s\n"` with the mode left-padded with `0` to 6 bytes. -/
def printEntry (e : TreeEntry) : Bytes :=
  List.replicate (6 - e.mode.length) 48 ++ e.mode ++ 32 ::
    bytesOfAscii e.objType ++ 32 :: e.hash ++ 9 :: e.name ++ [10]

/-- `GitTree.Print()` as the byte string it renders. -/
def printTree (tree : GitTree) : Bytes :=
  (tree.Entries.map printEntry).flatten

/-! ### Object codec and store writes

Modelled from the spec: §4.1 `encode` and `hash`, §4.2 `write`.  The
sources of `git/object.go` / `git/repo.go` are not in the excerpt. -/

/-- Modelled from the spec: `encode(kind, payload)` produces
`"<kind> <payloadLength>\0<payload>"`. -/
def encodeObj (kind : String) (payload : Bytes) : Bytes :=
  bytesOfAscii kind ++ 32 :: bytesOfAscii (toString payload.length) ++
    0 :: payload

/-- Modelled from the spec: the address of an object,
`hash(encode(kind, payload))`, as 40 lowercase hex digit bytes. -/
def hashObj (kind : String) (payload : Bytes) : Bytes :=
  sha1hex (encodeObj kind payload)

/-- The on-disk object files: address ↦ stored canonical bytes.  The
deflate compression applied on disk is invertible and irrelevant to
addressing, so the model stores the canonical bytes themselves. -/
abbrev FileStore := List (Bytes × Bytes)

/-- First-match association lookup among the object files. -/
def findFile : FileStore → Bytes → Option Bytes
  | [], _ => none
  | (k, v) :: rest, h => if k = h then some v else findFile rest h

/-- Modelled from the spec: `write(kind, payload) -> address` — "encodes,
hashes, ... and writes them to `<objectsDir>/...` only if not already
present (content addressing makes re-writes idempotent no-ops)."  Returns
the address and the updated file store. -/
def objectWrite (files : FileStore) (kind : String) (payload : Bytes) :
    Bytes × FileStore :=
  let canon := encodeObj kind payload
  let h := sha1hex canon
  match findFile files h with
  | some _ => (h, files)
  | none => (h, (h, canon) :: files)

/-! ### Name resolver and ref listing

Modelled from the spec: §4.5.  The source of `git/repo.go`'s
`UniqueNameResolve` / `GetRefs` is not in the excerpt; the state machine
below follows the spec's fixed precedence order. -/

/-- Repository reference state: the HEAD file's hash, the ref files under
the metadata root (path ↦ hash, e.g. `"refs/heads/master"`), and the
addresses present in the object store. -/
structure RepoState where
  head : Option String
  refs : List (String × String)
  objects : List String
deriving Repr

/-- First-match lookup of a ref file by its path under the metadata root;
`"HEAD"` is the HEAD file itself. -/
def refLookup (st : RepoState) (p : String) : Option String :=
  if p = "HEAD" then st.head
  else
    match st.refs.find? (fun r => r.1 = p) with
    | some r => some r.2
    | none => none

/-- Lowercase hex digit (the alphabet of stored object addresses). -/
def isHexB (c : Char) : Bool :=
  c.isDigit || ('a' ≤ c && c ≤ 'f')

/-- Every character of the string is a lowercase hex digit. -/
def strAllHex (s : String) : Bool :=
  s.toList.all isHexB

/-- `p` is a prefix of `s`, character-wise. -/
def strHasPfx (p s : String) : Bool :=
  p.toList.isPrefixOf s.toList

/-- Resolver failures.  Modelled from the spec: "no match" and "multiple
matches" (and an unmatched name) are reported identically as `ambiguous`;
an absent full 40-hex address is `missing` (NotFound). -/
inductive ResolveErr where
  | ambiguous (t : String)
  | missing (t : String)
deriving DecidableEq, Repr

/-- The `fatal: ambiguous argument` message with the queried text
interpolated. -/
def ambiguousMsg (t : String) : String :=
  "fatal: ambiguous argument '" ++ t ++
    "': unknown revision or path not in the working tree"

/-- Error text shown for each resolver failure (the NotFound wording is not
fixed by the spec). -/
def ResolveErr.message : ResolveErr → String
  | .ambiguous t => ambiguousMsg t
  | .missing t => "fatal: not a valid object name " ++ t

/-- Modelled from the spec: §4.5 resolver precedence — literal `"HEAD"`;
exactly 40 hex characters as a full address (NotFound if absent); 4–39 hex
characters as an abbreviated hash (exactly one match wins, otherwise
Ambiguous); otherwise a ref name tried as `refs/<t>`, `refs/heads/<t>`,
`refs/tags/<t>`, then `<t>` itself; finally Ambiguous. -/
def uniqueNameResolve (st : RepoState) (text : String) : Except ResolveErr String :=
  if text = "HEAD" then
    match st.head with
    | some h => .ok h
    | none => .error (.ambiguous text)
  else if text.length = 40 ∧ strAllHex text then
    if text ∈ st.objects then .ok text else .error (.missing text)
  else if 4 ≤ text.length ∧ text.length ≤ 39 ∧ strAllHex text then
    match st.objects.filter (fun o => strHasPfx text o) with
    | [h] => .ok h
    | _ => .error (.ambiguous text)
  else
    match refLookup st ("refs/" ++ text) with
    | some h => .ok h
    | none =>
      match refLookup st ("refs/heads/" ++ text) with
      | some h => .ok h
      | none =>
        match refLookup st ("refs/tags/" ++ text) with
        | some h => .ok h
        | none =>
          match refLookup st text with
          | some h => .ok h
          | none => .error (.ambiguous text)

/-- A listed ref, named as in the tests (`refs[i].Name`, `refs[i].RefHash`). -/
structure GitRef where
  Name : String
  RefHash : String
deriving DecidableEq, Repr

/-- Insert a ref into a name-sorted list (lexical order of the recursive
ref-directory walk). -/
def insertRef (r : String × String) : List (String × String) → List (String × String)
  | [] => [r]
  | x :: xs => if x.1 < r.1 then x :: insertRef r xs else r :: x :: xs

/-- Name-sorted ref files, as a recursive directory walk enumerates them. -/
def sortRefs : List (String × String) → List (String × String)
  | [] => []
  | r :: rs => insertRef r (sortRefs rs)

/-- Modelled from the spec: `getRefs(prefix, includeHead)` enumerates the
ref files whose name starts with the prefix; with `includeHead`, HEAD is
resolved and prepended with the literal name `"HEAD"`. -/
def getRefs (st : RepoState) (pfx : String) (showHead : Bool) :
    Except ResolveErr (List GitRef) :=
  let base := ((sortRefs st.refs).filter (fun r => strHasPfx pfx r.1)).map
    (fun r => { Name := r.1, RefHash := r.2 : GitRef })
  if showHead then
    match st.head with
    | some h => .ok ({ Name := "HEAD", RefHash := h } :: base)
    | none => .error (.missing "HEAD")
  else .ok base

/-! ### Commit model

Modelled from the spec: §4.4.  The source of `git/commit.go` is not in the
excerpt. -/

/-- Modelled from the spec: the fixed default author identity — "name/email
constants owned by this system's configuration".  Their exact values are
not fixed by the spec. -/
def AuthorName : String := "Gogit Author"

/-- Modelled from the spec: the fixed default author email constant. -/
def AuthorEmail : String := "gogit@example.com"

/-- A commit's structured fields: tree hash, parent hashes in order, author
name/email, timestamp and timezone text, and the verbatim message. -/
structure GitCommit where
  treeH : String
  parents : List String
  aName : String
  aEmail : String
  aTime : String
  aTz : String
  Msg : String
deriving DecidableEq, Repr

/-- `Commit.TreeHash()`. -/
def TreeHash (c : GitCommit) : String := c.treeH

/-- `Commit.Parents()`. -/
def Parents (c : GitCommit) : List String := c.parents

/-- `Commit.Author()`. -/
def Author (c : GitCommit) : String × String := (c.aName, c.aEmail)

/-- Modelled from the spec: construction from parameters — a tree hash, an
optional single parent (empty string = none), a message, the fixed default
author identity, and a caller-supplied timestamp/timezone. -/
def NewCommitFromParams (treeHash parent msg ts tz : String) : GitCommit :=
  { treeH := treeHash
    parents := if parent = "" then [] else [parent]
    aName := AuthorName
    aEmail := AuthorEmail
    aTime := ts
    aTz := tz
    Msg := msg }

/-- Modelled from the spec: the commit text encoding — `tree <hash>`,
zero-or-more `parent <hash>`, `author <name> <email> <ts> <tz>`,
`committer <name> <email> <ts> <tz>`, one blank line, then the message. -/
def renderCommit (c : GitCommit) : String :=
  "tree " ++ c.treeH ++ "\n" ++
    String.join (c.parents.map (fun p => "parent " ++ p ++ "\n")) ++
    "author " ++ c.aName ++ " <" ++ c.aEmail ++ "> " ++ c.aTime ++ " " ++
    c.aTz ++ "\n" ++
    "committer " ++ c.aName ++ " <" ++ c.aEmail ++ "> " ++ c.aTime ++ " " ++
    c.aTz ++ "\n" ++ "\n" ++ c.Msg

/-- Split a character stream at the first blank line (`"\n\n"`): header
characters and the verbatim body. -/
def splitBlank : List Char → Option (List Char × List Char)
  | [] => none
  | c :: rest =>
    if c = '\n' ∧ rest.headD ' ' = '\n' then some ([], rest.drop 1)
    else
      match splitBlank rest with
      | some (h, b) => some (c :: h, b)
      | none => none

/-- Whether two consecutive newline characters occur anywhere. -/
def hasNlNl : List Char → Bool
  | [] => false
  | c :: rest => (c = '\n' && rest.headD ' ' = '\n') || hasNlNl rest

/-- Split one header line at its first space into key and value. -/
def keyValue (l : List Char) : String × String :=
  (⟨l.takeWhile (· ≠ ' ')⟩, ⟨(l.dropWhile (· ≠ ' ')).drop 1⟩)

/-- Parse `<name> <email> <ts> <tz>` by locating the `<` `>` email
delimiters; name is what stands before `" <"`, the remaining tokens are
timestamp and timezone. -/
def parseAuthorLine (v : List Char) : String × String × String × String :=
  let name := v.takeWhile (· ≠ '<')
  let name := ⟨(name.reverse.dropWhile (· = ' ')).reverse⟩
  let rest := (v.dropWhile (· ≠ '<')).drop 1
  let email : String := ⟨rest.takeWhile (· ≠ '>')⟩
  let tail := ((rest.dropWhile (· ≠ '>')).drop 1).dropWhile (· = ' ')
  let ts : String := ⟨tail.takeWhile (· ≠ ' ')⟩
  let tz : String := ⟨(tail.dropWhile (· ≠ ' ')).drop 1⟩
  (name, email, ts, tz)

/-- Collect the structured commit from its header lines and body. -/
def commitOfHeaders (lines : List (String × String)) (body : String) : GitCommit :=
  let tree := ((lines.find? (fun kv => kv.1 = "tree")).map Prod.snd).getD ""
  let parents := (lines.filter (fun kv => kv.1 = "parent")).map Prod.snd
  let av := ((lines.find? (fun kv => kv.1 = "author")).map Prod.snd).getD ""
  let (n, e, ts, tz) := parseAuthorLine av.toList
  { treeH := tree, parents := parents, aName := n, aEmail := e,
    aTime := ts, aTz := tz, Msg := body }

/-- Modelled from the spec: parse a commit text — split headers from body
at the first blank line, split each header line into key and value,
accumulate `parent` lines in order, and parse the author line. -/
def parseCommit (text : String) : Except GitErr GitCommit :=
  match splitBlank text.toList with
  | none => .error (.malformedType "commit")
  | some (hdr, body) =>
    let lines := (splitSep '\n' hdr).filter (· ≠ [])
    let kvs := lines.map keyValue
    .ok (commitOfHeaders kvs ⟨body⟩)

/-! ### Checkout (embedded from `git/tree.go`) -/

/-- The blob wrapper of `git/blob.go` (source not in the excerpt). -/
structure GitBlob where
  Obj : GitObject
deriving DecidableEq, Repr

/-- Modelled from the spec: "Blob — wraps a RawObject of kind Blob"; by
symmetry with `NewTree`, a non-blob object is rejected. -/
def NewBlob (obj : GitObject) : Except GitErr GitBlob :=
  if obj.ObjType ≠ "blob" then .error (.malformedType obj.ObjType)
  else .ok { Obj := obj }

/-- Filesystem paths as component lists (`filepath.Join(path, name)`
appends one component; faithful for the nonempty, slash-free, non-dot
names hypothesised below). -/
abbrev Path := List Bytes

/-- A filesystem node: a directory, or a file with contents and the
permission mode it was created with. -/
inductive FsNode where
  | dir
  | file (data : Bytes) (perm : Nat)
deriving DecidableEq, Repr

/-- The filesystem: newest entry first, lookup is first match. -/
abbrev FS := List (Path × FsNode)

/-- First-match lookup of a path. -/
def lookupFS : FS → Path → Option FsNode
  | [], _ => none
  | (p, n) :: rest, q => if p = q then some n else lookupFS rest q

/-- `os.Mkdir`: fails if the path already exists or its parent is not an
existing directory. -/
def mkdirFS (fs : FS) (p : Path) : Except GitErr FS :=
  match lookupFS fs p with
  | some _ => .error .ioErr
  | none =>
    if p ≠ [] ∧ lookupFS fs p.dropLast = some .dir then
      .ok ((p, .dir) :: fs)
    else .error .ioErr

/-- `ioutil.WriteFile`: creates the file with the given permission mode, or
truncates an existing file keeping its old mode; fails on a directory or a
missing parent. -/
def writeFileFS (fs : FS) (p : Path) (data : Bytes) (perm : Nat) :
    Except GitErr FS :=
  match lookupFS fs p with
  | some (.file _ old) => .ok ((p, .file data old) :: fs)
  | some .dir => .error .ioErr
  | none =>
    if p ≠ [] ∧ lookupFS fs p.dropLast = some .dir then
      .ok ((p, .file data perm) :: fs)
    else .error .ioErr

/-- Go `strconv.ParseInt(s, 8, 32)` as used with its error ignored: the
value of an all-octal-digit nonempty string, otherwise 0.  (The int32 range
clamp is unreachable: callers pass at most three octal digits.) -/
def octParseGo (l : Bytes) : Nat :=
  if l ≠ [] ∧ l.all (fun b => 48 ≤ b && b ≤ 55) then
    l.foldl (fun v b => v * 8 + (b - 48)) 0
  else 0

/-- `GitTree.Checkout(path)`'s entry loop, by fuel (each recursion level
re-reads a tree object from the store, so the depth is bounded only by the
store; fuel exhaustion is reported as an error and never reached at the
fuel the theorems quantify over).  For each entry: resolve its hash in the
store; a `"tree"` entry makes the directory and recurses on the parsed
subtree; any other entry is loaded as a blob and written to a file whose
mode is the octal value of `entry.mode[3:]`.  The first failure returns
immediately, handing back the filesystem as already mutated (no cleanup).
The Go method finds the repository ambiently via `GetRepo(".")`; the store
is passed explicitly here. -/
def checkoutLoop : Nat → Store → Path → FS → List TreeEntry →
    Except (GitErr × FS) FS
  | 0, _, _, fs, _ => .error (.oob, fs)
  | _ + 1, _, _, fs, [] => .ok fs
  | fuel + 1, store, path, fs, e :: rest =>
    let createPath := path ++ [e.name]
    match objectParse store e.hash with
    | .error err => .error (err, fs)
    | .ok obj =>
      if e.objType = "tree" then
        match mkdirFS fs createPath with
        | .error err => .error (err, fs)
        | .ok fs1 =>
          match NewTree store obj with
          | .error err => .error (err, fs1)
          | .ok sub =>
            match checkoutLoop fuel store createPath fs1 sub.Entries with
            | .error r => .error r
            | .ok fs2 => checkoutLoop fuel store path fs2 rest
      else
        match NewBlob obj with
        | .error err => .error (err, fs)
        | .ok blob =>
          let perm := octParseGo (e.mode.drop 3)
          match writeFileFS fs createPath blob.Obj.ObjData perm with
          | .error err => .error (err, fs)
          | .ok fs1 => checkoutLoop fuel store path fs1 rest

/-- `GitTree.Checkout(path)` on a filesystem state. -/
def Checkout (fuel : Nat) (store : Store) (tree : GitTree) (path : Path)
    (fs : FS) : Except (GitErr × FS) FS :=
  checkoutLoop fuel store path fs tree.Entries

/-! ### Tree payload framing

Specification-level views of the tree binary format used to state the
parser's behaviour: `frameSplit` performs only the framing decomposition
(mode to the first space, name to the first NUL, 20 raw hash bytes),
`firstBad` locates the first entry the parser would reject, and `mkEntry`
is the entry the parser builds from one well-framed block. -/

/-- Lowercase hex digit byte (`0`–`9`, `a`–`f`). -/
def isLowerHexDigitB (b : Nat) : Bool :=
  (48 ≤ b && b ≤ 57) || (97 ≤ b && b ≤ 102)

/-- The framing decomposition of a tree payload: the (mode, name, raw-hash)
byte triples of its entry blocks, `none` when some block lacks a space, a
NUL after it, or 20 trailing hash bytes.  Fuel as in `parseLoop`. -/
def frameSplit : Nat → Bytes → Option (List (Bytes × Bytes × Bytes))
  | 0, _ => none
  | _ + 1, [] => some []
  | fuel + 1, data =>
    match indexOfByte 32 data, indexOfByte 0 data with
    | some si, some ni =>
      if si + 1 ≤ ni ∧ ni + 21 ≤ data.length then
        match frameSplit fuel (data.drop (ni + 21)) with
        | some rest =>
          some ((data.take si, (data.drop (si + 1)).take (ni - (si + 1)),
                 (data.drop (ni + 1)).take 20) :: rest)
        | none => none
      else none
    | _, _ => none

/-- The object type recorded for an address, empty for a dangling one. -/
def objTypeAt (store : Store) (h : Bytes) : String :=
  ((findObj store h).getD (NewObject "" [])).ObjType

/-- The first error `ParseData` raises over a framing decomposition: a mode
that is not 5 or 6 bytes long is Malformed, a dangling hash is the store's
NotFound, in block order. -/
def firstBad (store : Store) : List (Bytes × Bytes × Bytes) → Option GitErr
  | [] => none
  | (mo, _, ha) :: rest =>
    if mo.length ≠ 5 ∧ mo.length ≠ 6 then some (.malformedMode mo)
    else
      match findObj store (hexEncode ha) with
      | none => some (.notFound (hexEncode ha))
      | some _ => firstBad store rest

/-- The `TreeEntry` built from one well-framed block. -/
def mkEntry (store : Store) (raw : Bytes × Bytes × Bytes) : TreeEntry :=
  { mode := raw.1, hash := hexEncode raw.2.2,
    objType := objTypeAt store (hexEncode raw.2.2), name := raw.2.1 }

/-! ### Tree text specifications

Structured view of the input format of §6 (`"<mode> <kind> <hash>\t<name>\n"`
per line), used to state the build/print round trip. -/

/-- One line of a tree text specification. -/
structure LineSpec where
  mode : Bytes
  kind : Bytes
  hash : Bytes
  name : Bytes

/-- The byte text of one line: `mode SP kind SP hash TAB name LF`. -/
def renderLine (ls : LineSpec) : Bytes :=
  ls.mode ++ 32 :: ls.kind ++ 32 :: ls.hash ++ 9 :: ls.name ++ [10]

/-- The byte text of a whole specification. -/
def renderSpec (lines : List LineSpec) : Bytes :=
  (lines.map renderLine).flatten

/-- The framing triple a good line's payload block parses back to. -/
def rawOf (ls : LineSpec) : Bytes × Bytes × Bytes :=
  (ls.mode.dropWhile (· == 48), ls.name, (hexDecode ls.hash).getD [])

/-- The bytes of one specification line before its newline. -/
def renderLineBody (ls : LineSpec) : Bytes :=
  ls.mode ++ 32 :: ls.kind ++ 32 :: ls.hash ++ 9 :: ls.name

/-- The binary payload block `NewTreeFromInput` emits for one line. -/
def payloadEntry (ls : LineSpec) : Bytes :=
  ls.mode.dropWhile (· == 48) ++ 32 :: ls.name ++ 0 ::
    (hexDecode ls.hash).getD []

/-- A line the round trip supports: a 6-digit zero-padded mode whose
zero-stripped form still has 5 or 6 digits, a 40-digit lowercase hex hash
resolving in the store to an object whose type is the line's kind field, and
nonempty whitespace- and NUL-free kind and name fields. -/
def goodLine (store : Store) (ls : LineSpec) : Prop :=
  ls.mode.length = 6 ∧
  (∀ b ∈ ls.mode, 48 ≤ b ∧ b ≤ 57) ∧
  ((ls.mode.dropWhile (· == 48)).length = 5 ∨
   (ls.mode.dropWhile (· == 48)).length = 6) ∧
  ls.hash.length = 40 ∧
  (∀ b ∈ ls.hash, isLowerHexDigitB b = true) ∧
  ls.name ≠ [] ∧
  (∀ b ∈ ls.name, isWsB b = false ∧ b ≠ 0) ∧
  (findObj store ls.hash).isSome = true ∧
  ls.kind = bytesOfAscii (objTypeAt store ls.hash) ∧
  ls.kind ≠ [] ∧
  (∀ b ∈ ls.kind, isWsB b = false)

/-- `q` lies at or below `p` in the directory tree. -/
def pathUnder (p q : Path) : Prop :=
  ∃ r, q = p ++ r

/-- A tree entry name that is a real path segment, for which
`filepath.Join(path, name)` is exactly one appended component. -/
def validName (n : Bytes) : Prop :=
  n ≠ [] ∧ (∀ b ∈ n, b ≠ 47) ∧ n ≠ [46] ∧ n ≠ [46, 46]

/-- The filesystem state an aborted or completed checkout hands back. -/
def fsOf : Except (GitErr × FS) FS → FS
  | .ok fs => fs
  | .error (_, fs) => fs

/-- What `Checkout` promises for one entry: a tree entry has become a
directory at `path/name`; any other entry has become a file holding the
stored object's bytes whose permission mode is the low 9 bits of the octal
value of the mode text after its leading 3 characters. -/
def matEntry (store : Store) (fs : FS) (path : Path) (e : TreeEntry) : Prop :=
  if e.objType = "tree" then lookupFS fs (path ++ [e.name]) = some .dir
  else ∃ obj, objectParse store e.hash = .ok obj ∧
    lookupFS fs (path ++ [e.name]) =
      some (.file obj.ObjData (octParseGo (e.mode.drop 3) % 512))

/-! ## Concrete test fixtures (the scenario of `git_test.go`) -/

/-- The blob object holding `"Hello World\n"`. -/
def testBlobObj : GitObject := NewObject "blob" (bytesOfAscii "Hello World\n")

/-- A store containing exactly the test blob at its content address. -/
def testStore : Store :=
  [(bytesOfAscii "557db03de997c86a4a028e1ebd3a1ceb225be238", testBlobObj)]

/-- The tree text specification of the test
(`"100644 blob <blobHash>\ttestfile\n"`). -/
def testTreeInput : Bytes :=
  bytesOfAscii "100644 blob 557db03de997c86a4a028e1ebd3a1ceb225be238\ttestfile\n"

/-- The tree the test builds, written out explicitly: payload
`"100644 testfile\0" ++ <20 raw hash bytes>` and its single parsed entry. -/
def testTree : GitTree :=
  { Obj := NewObject "tree" (bytesOfAscii "100644 testfile" ++ 0 ::
      [0x55, 0x7d, 0xb0, 0x3d, 0xe9, 0x97, 0xc8, 0x6a, 0x4a, 0x02,
       0x8e, 0x1e, 0xbd, 0x3a, 0x1c, 0xeb, 0x22, 0x5b, 0xe2, 0x38])
    Entries := [{ mode := bytesOfAscii "100644"
                  hash := bytesOfAscii "557db03de997c86a4a028e1ebd3a1ceb225be238"
                  objType := "blob"
                  name := bytesOfAscii "testfile" }] }


/-- The kind-mismatch line: the blob's address declared with kind `tree`. -/
def c2BadLine : LineSpec :=
  { mode := bytesOfAscii "100644", kind := bytesOfAscii "tree",
    hash := bytesOfAscii "557db03de997c86a4a028e1ebd3a1ceb225be238",
    name := bytesOfAscii "testfile" }

/-- The matching-kind line of the test scenario. -/
def c2GoodLine : LineSpec :=
  { mode := bytesOfAscii "100644", kind := bytesOfAscii "blob",
    hash := bytesOfAscii "557db03de997c86a4a028e1ebd3a1ceb225be238",
    name := bytesOfAscii "testfile" }

/-- The framing triple of the test tree's single payload block. -/
def testRaw : Bytes × Bytes × Bytes :=
  (bytesOfAscii "100644", bytesOfAscii "testfile",
   [0x55, 0x7d, 0xb0, 0x3d, 0xe9, 0x97, 0xc8, 0x6a, 0x4a, 0x02,
    0x8e, 0x1e, 0xbd, 0x3a, 0x1c, 0xeb, 0x22, 0x5b, 0xe2, 0x38])

/-! ## Checkout abort fixtures: a first-level file, then a tree entry with
the same name whose `Mkdir` fails (EEXIST), then a never-reached entry. -/

def demoBlob : GitObject := NewObject "blob" [72, 105]

def demoStore : Store :=
  [(bytesOfAscii "ha", demoBlob), (bytesOfAscii "ht", NewObject "tree" [])]

def demoTree : GitTree :=
  { Obj := NewObject "tree" []
    Entries :=
      [{ mode := bytesOfAscii "100644", hash := bytesOfAscii "ha",
         objType := "blob", name := bytesOfAscii "a" },
       { mode := bytesOfAscii "040000", hash := bytesOfAscii "ht",
         objType := "tree", name := bytesOfAscii "a" },
       { mode := bytesOfAscii "100644", hash := bytesOfAscii "ha",
         objType := "blob", name := bytesOfAscii "c" }] }

def demoPath : Path := [bytesOfAscii "r"]

def demoFS : FS := [(demoPath, .dir)]

def demoFS1 : FS := (demoPath ++ [bytesOfAscii "a"], .file [72, 105] 420) :: demoFS

def demoDst : Path := [bytesOfAscii "dst"]

def demoDstFS : FS := [(demoDst, FsNode.dir)]

/-! ## Theorems -/

set_option maxRecDepth 40000

/-- **C1.**  Storing the blob whose payload is the bytes `"Hello World\n"`
yields the address `557db03de997c86a4a028e1ebd3a1ceb225be238`; the tree
built from the text specification naming exactly that blob as `testfile`
with mode `100644` yields the address
`e592dfe791dd1e1cf202668707a5cfac07a635b3`, and its `DataSize` (binary
payload length) is 36. -/
theorem c1_concrete_addresses :
    hashObj "blob" (bytesOfAscii "Hello World\n") =
      bytesOfAscii "557db03de997c86a4a028e1ebd3a1ceb225be238" ∧
    NewTreeFromInput testStore testTreeInput = .ok testTree ∧
    hashObj "tree" testTree.Obj.ObjData =
      bytesOfAscii "e592dfe791dd1e1cf202668707a5cfac07a635b3" ∧
    DataSize testTree = 36 := by
  refine ⟨by decide, ?_, by decide, by decide⟩
  rfl

/-- Every write returns the content address of the canonical encoding. -/
theorem objectWrite_fst (files : FileStore) (kind : String) (payload : Bytes) :
    (objectWrite files kind payload).1 = hashObj kind payload := by
  cases hf : findFile files (sha1hex (encodeObj kind payload)) <;>
    simp [objectWrite, hashObj, hf]

/-- **C6.**  The address of an object is a deterministic function of kind
and payload alone (the same on every run, independent of store state), and
a second write of the same kind and payload returns the same address
without error and leaves the store unchanged, because the store writes only
when the content-addressed target is not already present. -/
theorem c6_write_deterministic_idempotent (files : FileStore) (kind : String)
    (payload : Bytes) :
    objectWrite (objectWrite files kind payload).2 kind payload =
      objectWrite files kind payload ∧
    (∀ files', (objectWrite files' kind payload).1 =
      (objectWrite files kind payload).1) := by
  constructor
  · unfold objectWrite
    cases hf : findFile files (sha1hex (encodeObj kind payload)) with
    | some v => simp [hf]
    | none => simp [hf, findFile]
  · intro files'
    rw [objectWrite_fst, objectWrite_fst]

/-- **C8.**  With exactly one branch `master` and HEAD present, listing
refs with an empty prefix and `includeHead = false` returns exactly one
entry named `refs/heads/master`; with `includeHead = true` it returns two
entries with the HEAD entry first, named literally `HEAD`, both carrying
the same hash. -/
theorem c8_ref_listing (h : String) (objs : List String) :
    getRefs { head := some h, refs := [("refs/heads/master", h)],
              objects := objs } "" false =
      .ok [{ Name := "refs/heads/master", RefHash := h }] ∧
    getRefs { head := some h, refs := [("refs/heads/master", h)],
              objects := objs } "" true =
      .ok [{ Name := "HEAD", RefHash := h },
           { Name := "refs/heads/master", RefHash := h }] := by
  constructor <;>
    simp [getRefs, sortRefs, insertRef, strHasPfx, List.isPrefixOf]

/-- **C4.**  In a repository with exactly one commit on branch `master`
and HEAD pointing at it, resolving `"HEAD"`, the full 40-hex commit hash,
an unambiguous 4-character prefix of it, `"master"`, `"heads/master"`, and
`"refs/heads/master"` all return the identical commit address. -/
theorem c4_resolver_precedence (h p : String) (objs : List String)
    (hne : h ≠ "HEAD") (hlen : h.length = 40) (hhex : strAllHex h = true)
    (hmem : h ∈ objs)
    (hp : p = h.take 4) (hpne : p ≠ "HEAD") (hplen : p.length = 4)
    (hphex : strAllHex p = true)
    (huniq : objs.filter (fun o => strHasPfx p o) = [h]) :
    uniqueNameResolve { head := some h, refs := [("refs/heads/master", h)],
                        objects := objs } "HEAD" = .ok h ∧
    uniqueNameResolve { head := some h, refs := [("refs/heads/master", h)],
                        objects := objs } h = .ok h ∧
    uniqueNameResolve { head := some h, refs := [("refs/heads/master", h)],
                        objects := objs } p = .ok h ∧
    uniqueNameResolve { head := some h, refs := [("refs/heads/master", h)],
                        objects := objs } "master" = .ok h ∧
    uniqueNameResolve { head := some h, refs := [("refs/heads/master", h)],
                        objects := objs } "heads/master" = .ok h ∧
    uniqueNameResolve { head := some h, refs := [("refs/heads/master", h)],
                        objects := objs } "refs/heads/master" = .ok h := by
  subst hp
  refine ⟨by simp [uniqueNameResolve], ?_, ?_, ?_, ?_, ?_⟩
  · simp [uniqueNameResolve, hne, hlen, hhex, hmem]
  · simp [uniqueNameResolve, hpne, hplen, hphex, huniq]
  · have h1 : strAllHex "master" = false := by decide
    have h2 : "master".length = 6 := by decide
    simp [uniqueNameResolve, refLookup, h1, h2, List.find?]
  · have h1 : strAllHex "heads/master" = false := by decide
    have h2 : "heads/master".length = 12 := by decide
    simp [uniqueNameResolve, refLookup, h1, h2, List.find?]
  · have h1 : strAllHex "refs/heads/master" = false := by decide
    have h2 : "refs/heads/master".length = 17 := by decide
    simp [uniqueNameResolve, refLookup, h1, h2, List.find?]

/-- **C4 witness.**  The concrete single-commit repository of the test
scenario, with the blob address standing for the commit hash. -/
theorem c4_resolver_precedence_witness :
    uniqueNameResolve
      { head := some "557db03de997c86a4a028e1ebd3a1ceb225be238",
        refs := [("refs/heads/master", "557db03de997c86a4a028e1ebd3a1ceb225be238")],
        objects := ["557db03de997c86a4a028e1ebd3a1ceb225be238"] } "HEAD" =
      .ok "557db03de997c86a4a028e1ebd3a1ceb225be238" ∧
    uniqueNameResolve
      { head := some "557db03de997c86a4a028e1ebd3a1ceb225be238",
        refs := [("refs/heads/master", "557db03de997c86a4a028e1ebd3a1ceb225be238")],
        objects := ["557db03de997c86a4a028e1ebd3a1ceb225be238"] } "557d" =
      .ok "557db03de997c86a4a028e1ebd3a1ceb225be238" :=
  let r := c4_resolver_precedence "557db03de997c86a4a028e1ebd3a1ceb225be238"
    "557d" ["557db03de997c86a4a028e1ebd3a1ceb225be238"]
    (by decide) (by decide) (by decide) (by decide) (by decide) (by decide)
    (by decide) (by decide) (by decide)
  ⟨r.1, r.2.2.1⟩

/-- **C5.**  Name resolution reports "no match" and "multiple matches"
identically: a hex string shorter than 4 characters and an unrecognized
name both fall through every resolution step and fail with an `Ambiguous`
error; an abbreviated hash with zero or several matches fails the same
way; and the error message is exactly
`fatal: ambiguous argument '<text>': unknown revision or path not in the
working tree` with the queried text interpolated. -/
theorem c5_ambiguous_error_shape (st : RepoState) (t : String) :
    (t ≠ "HEAD" →
      ¬(t.length = 40 ∧ strAllHex t = true) →
      ¬(4 ≤ t.length ∧ t.length ≤ 39 ∧ strAllHex t = true) →
      refLookup st ("refs/" ++ t) = none →
      refLookup st ("refs/heads/" ++ t) = none →
      refLookup st ("refs/tags/" ++ t) = none →
      refLookup st t = none →
      uniqueNameResolve st t = .error (.ambiguous t)) ∧
    (t ≠ "HEAD" →
      ¬(t.length = 40 ∧ strAllHex t = true) →
      (4 ≤ t.length ∧ t.length ≤ 39 ∧ strAllHex t = true) →
      (∀ h, st.objects.filter (fun o => strHasPfx t o) ≠ [h]) →
      uniqueNameResolve st t = .error (.ambiguous t)) ∧
    (ResolveErr.ambiguous t).message =
      "fatal: ambiguous argument '" ++ t ++
        "': unknown revision or path not in the working tree" := by
  refine ⟨?_, ?_, rfl⟩
  · intro h1 h2 h3 h4 h5 h6 h7
    simp [uniqueNameResolve, h1, h2, h3, h4, h5, h6, h7]
  · intro h1 h2 h3 h4
    simp only [uniqueNameResolve, if_neg h1, if_neg h2, if_pos h3]

/-- **C5 witness.**  A 3-character hex string and an unrecognized name both
produce the identical ambiguous-argument message in an empty-ref
repository. -/
theorem c5_ambiguous_error_shape_witness :
    uniqueNameResolve { head := none, refs := [], objects := [] } "abc" =
      .error (.ambiguous "abc") ∧
    uniqueNameResolve { head := none, refs := [], objects := [] } "FOO" =
      .error (.ambiguous "FOO") ∧
    (ResolveErr.ambiguous "abc").message =
      "fatal: ambiguous argument 'abc': unknown revision or path not in " ++
        "the working tree" :=
  ⟨(c5_ambiguous_error_shape { head := none, refs := [], objects := [] }
      "abc").1 (by decide) (by decide) (by decide) (by decide) (by decide)
      (by decide) (by decide),
   (c5_ambiguous_error_shape { head := none, refs := [], objects := [] }
      "FOO").1 (by decide) (by decide) (by decide) (by decide) (by decide)
      (by decide) (by decide),
   by decide⟩


theorem hasNlNl_nlfree_append (l r : List Char) (h : '\n' ∉ l) :
    hasNlNl (l ++ r) = hasNlNl r := by
  induction l with
  | nil => rfl
  | cons c cs ih =>
    simp only [List.mem_cons, not_or] at h
    have hc : ¬ c = '\n' := fun hh => h.1 hh.symm
    simp [hasNlNl, hc, ih h.2]

theorem splitBlank_exact (H m : List Char) (h : hasNlNl (H ++ ['\n']) = false) :
    splitBlank (H ++ '\n' :: '\n' :: m) = some (H, m) := by
  induction H with
  | nil => simp [splitBlank]
  | cons c cs ih =>
    rw [List.cons_append] at h
    rw [hasNlNl] at h
    rw [Bool.or_eq_false_iff] at h
    obtain ⟨h1, h2⟩ := h
    have hhd : (cs ++ '\n' :: '\n' :: m).headD ' ' = (cs ++ ['\n']).headD ' ' := by
      cases cs <;> rfl
    rw [List.cons_append, splitBlank]
    rw [if_neg ?_, ih h2]
    · intro hcontra
      rw [hhd] at hcontra
      have htrue : (c = '\n' && (cs ++ ['\n']).headD ' ' = '\n' : Bool) = true := by
        rw [decide_eq_true hcontra.1, decide_eq_true hcontra.2]
        rfl
      rw [htrue] at h1
      exact absurd h1 (by decide)

theorem hasNlNl_lines (ls : List (List Char))
    (h : ∀ l ∈ ls, l ≠ [] ∧ '\n' ∉ l) :
    hasNlNl ((ls.map (· ++ ['\n'])).flatten) = false := by
  induction ls with
  | nil => rfl
  | cons l ls' ih =>
    have hl := h l (List.mem_cons_self l ls')
    have hrest : ∀ l2 ∈ ls', l2 ≠ [] ∧ '\n' ∉ l2 := fun l2 hm => h l2 (List.mem_cons_of_mem l hm)
    rw [List.map_cons, List.flatten_cons, List.append_assoc, List.singleton_append]
    rw [hasNlNl_nlfree_append l _ hl.2]
    rw [hasNlNl]
    rw [ih hrest]
    have hhd : ((ls'.map (· ++ ['\n'])).flatten).headD ' ' ≠ '\n' := by
      cases ls' with
      | nil => decide
      | cons l2 ls2 =>
        have hl2 := hrest l2 (List.mem_cons_self l2 ls2)
        rw [List.map_cons, List.flatten_cons]
        cases hx : l2 with
        | nil => exact absurd hx hl2.1
        | cons a l2' =>
          have : a ≠ '\n' := by
            intro hh
            exact hl2.2 (by rw [hx, hh]; exact List.mem_cons_self _ _)
          simpa using this
    rw [Bool.or_false, decide_eq_false hhd, Bool.and_false]

theorem splitSep_sepFree {α : Type} [DecidableEq α] (sep : α) (l : List α)
    (h : sep ∉ l) : splitSep sep l = [l] := by
  induction l with
  | nil => rfl
  | cons x xs ih =>
    simp only [List.mem_cons, not_or] at h
    rw [splitSep, if_neg (fun hh => h.1 hh.symm), ih h.2]

theorem splitSep_append {α : Type} [DecidableEq α] (sep : α) (l r : List α)
    (h : sep ∉ l) : splitSep sep (l ++ sep :: r) = l :: splitSep sep r := by
  induction l with
  | nil => simp [splitSep]
  | cons x xs ih =>
    simp only [List.mem_cons, not_or] at h
    rw [List.cons_append, splitSep, if_neg (fun hh => h.1 hh.symm), ih h.2]

theorem strMk_data (s : String) : (⟨s.data⟩ : String) = s := by
  cases s
  rfl

theorem takeWhile_word (w r : List Char) (hw : ' ' ∉ w) :
    (w ++ ' ' :: r).takeWhile (· ≠ ' ') = w := by
  induction w with
  | nil => simp [List.takeWhile_cons]
  | cons a as ih =>
    simp only [List.mem_cons, not_or] at hw
    have ha : ¬ a = ' ' := fun hh => hw.1 hh.symm
    simp only [List.cons_append, List.takeWhile_cons]
    simp [ha]
    simpa using ih hw.2

theorem dropWhile_word (w r : List Char) (hw : ' ' ∉ w) :
    (w ++ ' ' :: r).dropWhile (· ≠ ' ') = ' ' :: r := by
  induction w with
  | nil => simp [List.dropWhile_cons]
  | cons a as ih =>
    simp only [List.mem_cons, not_or] at hw
    have ha : ¬ a = ' ' := fun hh => hw.1 hh.symm
    simp only [List.cons_append, List.dropWhile_cons]
    simp [ha]
    simpa using ih hw.2

theorem keyValue_word (w r : List Char) (hw : ' ' ∉ w) :
    keyValue (w ++ ' ' :: r) = (⟨w⟩, ⟨r⟩) := by
  have h1 := takeWhile_word w r hw
  have h2 := dropWhile_word w r hw
  simp at h1 h2
  simp [keyValue, h1, h2]

theorem parseAuthor_concrete (rest : List Char) :
    (parseAuthorLine ("Gogit Author <gogit@example.com> ".data ++ rest)).1 = "Gogit Author" ∧
    (parseAuthorLine ("Gogit Author <gogit@example.com> ".data ++ rest)).2.1 = "gogit@example.com" := by
  have h3 : "Gogit Author <gogit@example.com> ".data =
      ['G','o','g','i','t',' ','A','u','t','h','o','r',' ','<','g','o','g','i','t','@','e','x','a','m','p','l','e','.','c','o','m','>',' '] := rfl
  rw [h3]
  constructor <;> simp [parseAuthorLine]

/-- **C9.**  A commit constructed from a tree hash, an absent parent, and
a message satisfies `TreeHash` = the given hash, `Parents` = empty, `Msg` =
the message verbatim, and `Author` = the fixed default author constants;
and parsing the rendered commit text back yields the same four values. -/
theorem c9_commit_construction_roundtrip (t m ts tz : String)
    (ht : '\n' ∉ t.data) (hts : '\n' ∉ ts.data) (htz : '\n' ∉ tz.data) :
    (TreeHash (NewCommitFromParams t "" m ts tz) = t ∧
     Parents (NewCommitFromParams t "" m ts tz) = [] ∧
     (NewCommitFromParams t "" m ts tz).Msg = m ∧
     Author (NewCommitFromParams t "" m ts tz) = (AuthorName, AuthorEmail)) ∧
    ∃ c', parseCommit (renderCommit (NewCommitFromParams t "" m ts tz)) = .ok c' ∧
      TreeHash c' = t ∧ Parents c' = [] ∧ c'.Msg = m ∧
      Author c' = (AuthorName, AuthorEmail) := by
  refine ⟨⟨rfl, by simp [NewCommitFromParams, Parents], rfl, rfl⟩, ?_⟩
  have hA : AuthorName = "Gogit Author" := rfl
  have hE : AuthorEmail = "gogit@example.com" := rfl
  set L1 : List Char := "tree ".data ++ t.data with hL1
  set L2 : List Char := "author ".data ++ "Gogit Author <gogit@example.com> ".data ++ ts.data ++ ' ' :: tz.data with hL2
  set L3 : List Char := "committer ".data ++ "Gogit Author <gogit@example.com> ".data ++ ts.data ++ ' ' :: tz.data with hL3
  have hnl1 : '\n' ∉ L1 := by
    rw [hL1]
    simp only [List.mem_append, not_or]
    exact ⟨by decide, ht⟩
  have hnl2 : '\n' ∉ L2 := by
    rw [hL2]
    intro hmem
    rcases List.mem_append.mp hmem with h | h
    · rcases List.mem_append.mp h with h | h
      · rcases List.mem_append.mp h with h | h
        · exact absurd h (by decide)
        · exact absurd h (by decide)
      · exact hts h
    · rcases List.mem_cons.mp h with h | h
      · exact absurd h (by decide)
      · exact htz h
  have hnl3 : '\n' ∉ L3 := by
    rw [hL3]
    intro hmem
    rcases List.mem_append.mp hmem with h | h
    · rcases List.mem_append.mp h with h | h
      · rcases List.mem_append.mp h with h | h
        · exact absurd h (by decide)
        · exact absurd h (by decide)
      · exact hts h
    · rcases List.mem_cons.mp h with h | h
      · exact absurd h (by decide)
      · exact htz h
  have hne1 : L1 ≠ [] := by rw [hL1]; exact (by decide : "tree ".data ≠ []) ∘ (List.append_eq_nil.mp · |>.1)
  have hne2 : L2 ≠ [] := by
    rw [hL2]
    intro hcon
    simp at hcon
  have hne3 : L3 ≠ [] := by
    rw [hL3]
    intro hcon
    simp at hcon
  have hrender : (renderCommit (NewCommitFromParams t "" m ts tz)).data =
      L1 ++ '\n' :: (L2 ++ '\n' :: (L3 ++ '\n' :: '\n' :: m.data)) := by
    rw [hL1, hL2, hL3]
    show ("tree " ++ t ++ "\n" ++
        String.join (([] : List String).map (fun p => "parent " ++ p ++ "\n")) ++
        "author " ++ AuthorName ++ " <" ++ AuthorEmail ++ "> " ++ ts ++ " " ++
        tz ++ "\n" ++
        "committer " ++ AuthorName ++ " <" ++ AuthorEmail ++ "> " ++ ts ++ " " ++
        tz ++ "\n" ++ "\n" ++ m).data = _
    simp [String.join, AuthorName, AuthorEmail]
  have hH : hasNlNl ((L1 ++ '\n' :: (L2 ++ '\n' :: L3)) ++ ['\n']) = false := by
    have hl := hasNlNl_lines [L1, L2, L3] (by
      intro l hl
      simp only [List.mem_cons, List.not_mem_nil, or_false] at hl
      rcases hl with h | h | h
      · rw [h]; exact ⟨hne1, hnl1⟩
      · rw [h]; exact ⟨hne2, hnl2⟩
      · rw [h]; exact ⟨hne3, hnl3⟩)
    have heq : (([L1, L2, L3].map (· ++ ['\n'])).flatten) =
        (L1 ++ '\n' :: (L2 ++ '\n' :: L3)) ++ ['\n'] := by
      simp
    rw [heq] at hl
    exact hl
  have hsb : splitBlank (renderCommit (NewCommitFromParams t "" m ts tz)).data =
      some (L1 ++ '\n' :: (L2 ++ '\n' :: L3), m.data) := by
    rw [hrender]
    have hx := splitBlank_exact (L1 ++ '\n' :: (L2 ++ '\n' :: L3)) m.data hH
    have heq2 : (L1 ++ '\n' :: (L2 ++ '\n' :: L3)) ++ '\n' :: '\n' :: m.data =
        L1 ++ '\n' :: (L2 ++ '\n' :: (L3 ++ '\n' :: '\n' :: m.data)) := by
      simp
    rw [heq2] at hx
    exact hx
  have hsplit : splitSep '\n' (L1 ++ '\n' :: (L2 ++ '\n' :: L3)) = [L1, L2, L3] := by
    rw [splitSep_append '\n' L1 _ hnl1, splitSep_append '\n' L2 _ hnl2,
      splitSep_sepFree '\n' L3 hnl3]
  have e1 : L1 = "tree".data ++ ' ' :: t.data := by rw [hL1]; rfl
  have e2 : L2 = "author".data ++ ' ' ::
      (("Gogit Author <gogit@example.com> ".data ++ ts.data) ++ ' ' :: tz.data) := by
    rw [hL2]
    try rfl
  have e3 : L3 = "committer".data ++ ' ' ::
      (("Gogit Author <gogit@example.com> ".data ++ ts.data) ++ ' ' :: tz.data) := by
    rw [hL3]
    try rfl
  have kv1 : keyValue L1 = ("tree", t) := by
    rw [e1, keyValue_word _ _ (by decide)]
  have kv2 : keyValue L2 = ("author",
      (⟨("Gogit Author <gogit@example.com> ".data ++ ts.data) ++ ' ' :: tz.data⟩ : String)) := by
    rw [e2, keyValue_word _ _ (by decide)]
  have kv3 : keyValue L3 = ("committer",
      (⟨("Gogit Author <gogit@example.com> ".data ++ ts.data) ++ ' ' :: tz.data⟩ : String)) := by
    rw [e3, keyValue_word _ _ (by decide)]
  have hparse : parseCommit (renderCommit (NewCommitFromParams t "" m ts tz)) =
      .ok (commitOfHeaders [("tree", t),
        ("author", (⟨("Gogit Author <gogit@example.com> ".data ++ ts.data) ++ ' ' :: tz.data⟩ : String)),
        ("committer", (⟨("Gogit Author <gogit@example.com> ".data ++ ts.data) ++ ' ' :: tz.data⟩ : String))]
        (⟨m.data⟩ : String)) := by
    have htl : (renderCommit (NewCommitFromParams t "" m ts tz)).toList =
        (renderCommit (NewCommitFromParams t "" m ts tz)).data := rfl
    have hfil : ([L1, L2, L3].filter (· ≠ [])) = [L1, L2, L3] := by
      simp [List.filter_cons, hne1, hne2, hne3]
    rw [parseCommit.eq_def, htl, hsb]
    simp only [hsplit, hfil, List.map_cons, List.map_nil, kv1, kv2, kv3]
  refine ⟨_, hparse, ?_, ?_, ?_, ?_⟩
  · show (commitOfHeaders _ _).treeH = t
    simp [commitOfHeaders, List.find?]
  · show (commitOfHeaders _ _).parents = []
    simp [commitOfHeaders, List.filter]
  · show (commitOfHeaders _ _).Msg = m
    simp [commitOfHeaders, strMk_data]
  · show ((commitOfHeaders _ _).aName, (commitOfHeaders _ _).aEmail) = (AuthorName, AuthorEmail)
    have hrw : ("Gogit Author <gogit@example.com> ".data ++ ts.data) ++ ' ' :: tz.data =
        "Gogit Author <gogit@example.com> ".data ++ (ts.data ++ ' ' :: tz.data) := by
      rw [List.append_assoc]
    have hpa := parseAuthor_concrete (ts.data ++ ' ' :: tz.data)
    simp [commitOfHeaders, List.find?]
    exact hpa

/-- **C9 witness.**  The test scenario's commit: the test tree hash, no
parent, the message `"Test commit for testing"`, and a concrete
timestamp. -/
theorem c9_commit_construction_roundtrip_witness :
    (TreeHash (NewCommitFromParams "e592dfe791dd1e1cf202668707a5cfac07a635b3" ""
        "Test commit for testing" "1600000000" "+0530") =
      "e592dfe791dd1e1cf202668707a5cfac07a635b3" ∧
     Parents (NewCommitFromParams "e592dfe791dd1e1cf202668707a5cfac07a635b3" ""
        "Test commit for testing" "1600000000" "+0530") = [] ∧
     (NewCommitFromParams "e592dfe791dd1e1cf202668707a5cfac07a635b3" ""
        "Test commit for testing" "1600000000" "+0530").Msg =
      "Test commit for testing" ∧
     Author (NewCommitFromParams "e592dfe791dd1e1cf202668707a5cfac07a635b3" ""
        "Test commit for testing" "1600000000" "+0530") =
      (AuthorName, AuthorEmail)) ∧
    ∃ c', parseCommit (renderCommit
        (NewCommitFromParams "e592dfe791dd1e1cf202668707a5cfac07a635b3" ""
          "Test commit for testing" "1600000000" "+0530")) = .ok c' ∧
      TreeHash c' = "e592dfe791dd1e1cf202668707a5cfac07a635b3" ∧
      Parents c' = [] ∧ c'.Msg = "Test commit for testing" ∧
      Author c' = (AuthorName, AuthorEmail) :=
  c9_commit_construction_roundtrip "e592dfe791dd1e1cf202668707a5cfac07a635b3"
    "Test commit for testing" "1600000000" "+0530"
    (by decide) (by decide) (by decide)


/-- **C10.**  `NewTree` rejects every raw object whose kind tag is not
`"tree"` with a `Malformed` error — regardless of the payload, so entry
parsing runs only after the kind check — and every successfully
constructed tree wraps a tree-kind object. -/
theorem c10_newTree_requires_tree_kind (store : Store) (obj : GitObject) :
    (obj.ObjType ≠ "tree" → NewTree store obj = .error (.malformedType obj.ObjType)) ∧
    (∀ t, NewTree store obj = .ok t → obj.ObjType = "tree" ∧ t.Obj = obj) := by
  constructor
  · intro hne
    simp [NewTree, hne]
  · intro t ht
    by_cases hk : obj.ObjType = "tree"
    · refine ⟨hk, ?_⟩
      rw [NewTree] at ht
      simp [hk] at ht
      cases hp : ParseData store obj.ObjData with
      | ok es => rw [hp] at ht; simp at ht; rw [← ht]
      | error e => rw [hp] at ht; simp at ht
    · simp [NewTree, hk] at ht

/-- **C10 witness.**  A blob-kind object whose payload could not even be
parsed as tree data is rejected by the kind check alone. -/
theorem c10_newTree_requires_tree_kind_witness :
    NewTree [] (NewObject "blob" [65]) = .error (.malformedType "blob") :=
  (c10_newTree_requires_tree_kind [] (NewObject "blob" [65])).1 (by decide)

theorem parseLoop_frame (fuel : Nat) : ∀ (store : Store) (data : Bytes)
    (raws : List (Bytes × Bytes × Bytes)), data.length < fuel →
    frameSplit fuel data = some raws →
    parseLoop fuel store data =
      (match firstBad store raws with
       | some e => .error e
       | none => .ok (raws.map (mkEntry store))) := by
  induction fuel with
  | zero => intro store data raws h _; omega
  | succ fuel ih =>
    intro store data raws hlen hf
    cases data with
    | nil =>
      rw [frameSplit] at hf
      injection hf with hf
      subst hf
      rfl
    | cons x xs =>
      simp only [frameSplit] at hf
      cases hsi : indexOfByte 32 (x :: xs) with
      | none => rw [hsi] at hf; simp at hf
      | some si =>
        cases hni : indexOfByte 0 (x :: xs) with
        | none => rw [hsi, hni] at hf; simp at hf
        | some ni =>
          rw [hsi, hni] at hf
          simp only [] at hf
          by_cases hcond : si + 1 ≤ ni ∧ ni + 21 ≤ (x :: xs).length
          · rw [if_pos hcond] at hf
            cases hrec : frameSplit fuel ((x :: xs).drop (ni + 21)) with
            | none => rw [hrec] at hf; cases hf
            | some rest =>
              rw [hrec] at hf
              injection hf with hf
              subst hf
              simp only [parseLoop, hsi, hni]
              by_cases hmode : ((x :: xs).take si).length ≠ 5 ∧ ((x :: xs).take si).length ≠ 6
              · rw [if_pos hmode]
                rw [firstBad, if_pos hmode]
              · rw [if_neg hmode, if_neg (by omega : ¬ ni < si + 1),
                  if_neg (by omega : ¬ (x :: xs).length < ni + 21)]
                cases hobj : findObj store (hexEncode (((x :: xs).drop (ni + 1)).take 20)) with
                | none =>
                  rw [firstBad, if_neg hmode]
                  simp only [objectParse, hobj]
                | some obj =>
                  simp only [objectParse, hobj]
                  have hlen2 : ((x :: xs).drop (ni + 21)).length < fuel := by
                    rw [List.length_drop]
                    simp only [List.length_cons] at hlen ⊢
                    omega
                  rw [ih store _ rest hlen2 hrec]
                  rw [firstBad, if_neg hmode]
                  simp only [hobj]
                  cases hfb : firstBad store rest with
                  | some e => rfl
                  | none =>
                    simp only [List.map_cons]
                    rw [mkEntry]
                    simp only [objTypeAt, hobj, Option.getD_some]
          · rw [if_neg hcond] at hf
            cases hf


theorem firstBad_not_oob (store : Store) :
    ∀ raws, firstBad store raws ≠ some .oob := by
  intro raws
  induction raws with
  | nil => simp [firstBad]
  | cons r rest ih =>
    rw [firstBad]
    by_cases hm : r.1.length ≠ 5 ∧ r.1.length ≠ 6
    · rw [if_pos hm]
      simp
    · rw [if_neg hm]
      cases hobj : findObj store (hexEncode r.2.2) with
      | none => simp
      | some o => exact ih

/-- **C3 (amended).**  On a well-framed payload (every entry block has a
space, a NUL after it, and at least 20 trailing hash bytes — witnessed by
`frameSplit`), `ParseData` returns the complete, sorted entry list or the
typed error of the first bad entry: a mode not exactly 5 or 6 bytes long
yields the Malformed error and a dangling entry hash yields the store's
NotFound error; in particular no well-framed payload reaches the
out-of-range panic.  (The original claim is refuted by
`c3_untyped_oob_on_bad_framing`: a payload without a space panics instead
of returning a typed error.) -/
theorem c3_parse_characterization (store : Store) (data : Bytes)
    (raws : List (Bytes × Bytes × Bytes))
    (hf : frameSplit (data.length + 1) data = some raws) :
    ParseData store data =
      (match firstBad store raws with
       | some e => .error e
       | none => .ok (sortEntries (raws.map (mkEntry store)))) ∧
    ParseData store data ≠ .error .oob := by
  have hp := parseLoop_frame (data.length + 1) store data raws (by omega) hf
  constructor
  · rw [ParseData, hp]
    cases hfb : firstBad store raws with
    | some e => rfl
    | none => rfl
  · rw [ParseData, hp]
    cases hfb : firstBad store raws with
    | some e =>
      simp only []
      intro hcon
      injection hcon with hcon
      rw [hcon] at hfb
      exact firstBad_not_oob store raws hfb
    | none => simp


theorem hexVal_digit (a : Nat) (ha : isLowerHexDigitB a = true) :
    ∃ v, hexVal a = some v ∧ v < 16 ∧ hexDigit v = a := by
  rw [isLowerHexDigitB] at ha
  simp only [Bool.or_eq_true, Bool.and_eq_true, decide_eq_true_eq] at ha
  rcases ha with ⟨h1, h2⟩ | ⟨h1, h2⟩
  · refine ⟨a - 48, ?_, by omega, ?_⟩
    · rw [hexVal, if_pos ⟨h1, h2⟩]
    · rw [hexDigit, if_pos (by omega)]
      omega
  · refine ⟨a - 87, ?_, by omega, ?_⟩
    · rw [hexVal, if_neg (by omega), if_pos ⟨h1, h2⟩]
    · rw [hexDigit, if_neg (by omega)]
      omega

theorem hex_roundtrip : ∀ (l : Bytes), (∀ b ∈ l, isLowerHexDigitB b = true) →
    l.length % 2 = 0 →
    ∃ d, hexDecode l = some d ∧ hexEncode d = l ∧ 2 * d.length = l.length
  | [], _, _ => ⟨[], rfl, rfl, rfl⟩
  | [_], _, hlen => by simp at hlen
  | a :: b :: rest, hhex, hlen => by
    have ihyp : ∀ c ∈ rest, isLowerHexDigitB c = true := fun c hc =>
      hhex c (by simp [hc])
    have hlen' : rest.length % 2 = 0 := by
      simp only [List.length_cons] at hlen ⊢
      omega
    obtain ⟨d, hd, he, hl⟩ := hex_roundtrip rest ihyp hlen'
    obtain ⟨va, hva, hva16, hda⟩ := hexVal_digit a (hhex a (by simp))
    obtain ⟨vb, hvb, hvb16, hdb⟩ := hexVal_digit b (hhex b (by simp))
    refine ⟨(va * 16 + vb) :: d, ?_, ?_, ?_⟩
    · simp only [hexDecode, hva, hvb, hd]
    · rw [hexEncode]
      have q1 : (va * 16 + vb) / 16 = va := by omega
      have q2 : (va * 16 + vb) % 16 = vb := by omega
      rw [q1, q2, hda, hdb, he]
    · simp only [List.length_cons] at hl ⊢
      omega


theorem indexOfByte_first (b : Nat) (x tail : Bytes) (hx : ∀ c ∈ x, c ≠ b) :
    indexOfByte b (x ++ b :: tail) = some x.length := by
  induction x with
  | nil => simp [indexOfByte]
  | cons c cs ih =>
    have hc : c ≠ b := hx c (by simp)
    have ihh := ih (fun c2 hc2 => hx c2 (by simp [hc2]))
    rw [List.cons_append, indexOfByte, if_neg hc, ihh]
    rfl

theorem fieldsGo_word (w rest acc : Bytes) (hw : ∀ b ∈ w, isWsB b = false) :
    fieldsGo (w ++ rest) acc = fieldsGo rest (w.reverse ++ acc) := by
  induction w generalizing acc with
  | nil => simp
  | cons c cs ih =>
    have hc : isWsB c = false := hw c (by simp)
    rw [List.cons_append, fieldsGo, hc]
    simp only [Bool.false_eq_true, if_false]
    rw [ih (c :: acc) (fun b hb => hw b (by simp [hb]))]
    simp

theorem fieldsGo_ws (s : Nat) (rest acc : Bytes) (hs : isWsB s = true)
    (hacc : acc ≠ []) :
    fieldsGo (s :: rest) acc = acc.reverse :: fieldsGo rest [] := by
  rw [fieldsGo, hs]
  simp [hacc]

theorem fieldsAscii_line (mo ki ha na : Bytes)
    (hmo : mo ≠ []) (hmo2 : ∀ b ∈ mo, isWsB b = false)
    (hki : ki ≠ []) (hki2 : ∀ b ∈ ki, isWsB b = false)
    (hha : ha ≠ []) (hha2 : ∀ b ∈ ha, isWsB b = false)
    (hna : na ≠ []) (hna2 : ∀ b ∈ na, isWsB b = false) :
    fieldsAscii (mo ++ 32 :: ki ++ 32 :: ha ++ 9 :: na) = [mo, ki, ha, na] := by
  rw [fieldsAscii]
  simp only [List.append_assoc, List.cons_append]
  rw [fieldsGo_word _ _ _ hmo2,
    fieldsGo_ws _ _ _ (by decide) (by simpa using hmo)]
  simp only [List.append_nil, List.reverse_reverse]
  rw [fieldsGo_word _ _ _ hki2,
    fieldsGo_ws _ _ _ (by decide) (by simpa using hki)]
  simp only [List.append_nil, List.reverse_reverse]
  rw [fieldsGo_word _ _ _ hha2,
    fieldsGo_ws _ _ _ (by decide) (by simpa using hha)]
  simp only [List.append_nil, List.reverse_reverse]
  rw [← List.append_nil na, fieldsGo_word _ _ _ hna2, fieldsGo,
    if_neg (by simpa using hna)]
  simp


theorem splitSep_flatten {α : Type} [DecidableEq α] (sep : α) :
    ∀ (ls : List (List α)), (∀ l ∈ ls, sep ∉ l) →
    splitSep sep ((ls.map (· ++ [sep])).flatten) = ls ++ [[]] := by
  intro ls
  induction ls with
  | nil => intro _; rfl
  | cons l rest ih =>
    intro h
    rw [List.map_cons, List.flatten_cons, List.append_assoc,
      List.singleton_append,
      splitSep_append sep l _ (h l (by simp)),
      ih (fun l2 h2 => h l2 (by simp [h2]))]
    rfl

theorem frameSplit_step (f : Nat) (s na d rest : Bytes)
    (hs : s ≠ []) (hs32 : ∀ b ∈ s, b ≠ 32) (hs0 : ∀ b ∈ s, b ≠ 0)
    (hna0 : ∀ b ∈ na, b ≠ 0) (hd : d.length = 20) :
    frameSplit (f + 1) (s ++ 32 :: (na ++ 0 :: (d ++ rest))) =
      (match frameSplit f rest with
       | some rs => some ((s, na, d) :: rs)
       | none => none) := by
  cases s with
  | nil => exact absurd rfl hs
  | cons s0 s' =>
    have h32 : indexOfByte 32 ((s0 :: s') ++ 32 :: (na ++ 0 :: (d ++ rest))) =
        some (s'.length + 1) := by
      have := indexOfByte_first 32 (s0 :: s') (na ++ 0 :: (d ++ rest)) hs32
      simpa using this
    have h0 : indexOfByte 0 ((s0 :: s') ++ 32 :: (na ++ 0 :: (d ++ rest))) =
        some (s'.length + 1 + 1 + na.length) := by
      have hmem : ∀ c ∈ (s0 :: s') ++ 32 :: na, c ≠ 0 := by
        intro c hc
        rcases List.mem_append.mp hc with h | h
        · exact hs0 c h
        · rcases List.mem_cons.mp h with h | h
          · omega
          · exact hna0 c h
      have base := indexOfByte_first 0 ((s0 :: s') ++ 32 :: na) (d ++ rest) hmem
      simp only [List.append_assoc, List.cons_append] at base
      refine base.trans ?_
      congr 1
      simp only [List.length_append, List.length_cons]
      omega
    have ht1 : List.take (s'.length + 1) ((s0 :: s') ++ 32 :: (na ++ 0 :: (d ++ rest))) =
        s0 :: s' := by
      have := List.take_left (s0 :: s') (32 :: (na ++ 0 :: (d ++ rest)))
      simpa using this
    have ht2 : List.take (na.length)
        (List.drop (s'.length + 1 + 1) ((s0 :: s') ++ 32 :: (na ++ 0 :: (d ++ rest)))) =
        na := by
      have hdrop : List.drop (s'.length + 1 + 1) ((s0 :: s') ++ 32 :: (na ++ 0 :: (d ++ rest))) =
          na ++ 0 :: (d ++ rest) := by
        have h1 : (s0 :: s') ++ 32 :: (na ++ 0 :: (d ++ rest)) =
            ((s0 :: s') ++ [32]) ++ (na ++ 0 :: (d ++ rest)) := by
          simp
        rw [h1]
        have := List.drop_left ((s0 :: s') ++ [32]) (na ++ 0 :: (d ++ rest))
        simpa [List.length_append] using this
      rw [hdrop]
      exact List.take_left na _
    have ht3 : List.take 20
        (List.drop (s'.length + 1 + 1 + na.length + 1) ((s0 :: s') ++ 32 :: (na ++ 0 :: (d ++ rest)))) =
        d := by
      have h1 : (s0 :: s') ++ 32 :: (na ++ 0 :: (d ++ rest)) =
          (((s0 :: s') ++ [32]) ++ (na ++ [0])) ++ (d ++ rest) := by
        simp
      rw [h1]
      have h2 : s'.length + 1 + 1 + na.length + 1 =
          (((s0 :: s') ++ [32]) ++ (na ++ [0])).length := by
        simp [List.length_append]
        omega
      rw [h2, List.drop_left]
      rw [← hd]
      exact List.take_left d rest
    have ht4 : List.drop (s'.length + 1 + 1 + na.length + 21)
        ((s0 :: s') ++ 32 :: (na ++ 0 :: (d ++ rest))) = rest := by
      have h1 : (s0 :: s') ++ 32 :: (na ++ 0 :: (d ++ rest)) =
          ((((s0 :: s') ++ [32]) ++ (na ++ [0])) ++ d) ++ rest := by
        simp
      rw [h1]
      have h2 : s'.length + 1 + 1 + na.length + 21 =
          (((((s0 :: s') ++ [32]) ++ (na ++ [0])) ++ d)).length := by
        simp [List.length_append, hd]
        omega
      rw [h2, List.drop_left]
    rw [List.cons_append]
    rw [List.cons_append] at h32 h0 ht1 ht2 ht3 ht4
    simp only [frameSplit, h32, h0]
    rw [if_pos (by
      constructor
      · omega
      · simp [List.length_append, hd]
        omega)]
    have harith : s'.length + 1 + 1 + na.length - (s'.length + 1 + 1) = na.length := by
      omega
    rw [harith, ht1, ht2]
    have harith2 : s'.length + 1 + 1 + na.length + 1 + 20 = s'.length + 1 + 1 + na.length + 21 := by
      omega
    rw [ht3, harith2, ht4]


theorem mem_dropWhile_zero (mo : Bytes) (b : Nat)
    (hb : b ∈ mo.dropWhile (· == 48)) : b ∈ mo := by
  exact (List.dropWhile_sublist _).subset hb

theorem stripped_ne_nil (mo : Bytes)
    (h : (mo.dropWhile (· == 48)).length = 5 ∨ (mo.dropWhile (· == 48)).length = 6) :
    mo.dropWhile (· == 48) ≠ [] := by
  intro hc
  rw [hc] at h
  simp at h

theorem frameSplit_payload (store : Store) :
    ∀ (lines : List LineSpec) (fuel : Nat), (∀ ls ∈ lines, goodLine store ls) →
    ((lines.map payloadEntry).flatten).length < fuel →
    frameSplit fuel ((lines.map payloadEntry).flatten) = some (lines.map rawOf) := by
  intro lines
  induction lines with
  | nil =>
    intro fuel _ hlen
    simp only [List.map_nil, List.flatten_nil] at hlen ⊢
    cases fuel with
    | zero => omega
    | succ f => rfl
  | cons ls rest ih =>
    intro fuel hg hlen
    obtain ⟨hm6, hmd, hms, hh40, hhhex, hnne, hnok, hobj, hkind, hkne, hkok⟩ :=
      hg ls (by simp)
    obtain ⟨d, hdec, henc, hdlen⟩ := hex_roundtrip ls.hash hhhex (by rw [hh40])
    have hd20 : d.length = 20 := by omega
    have hsne : ls.mode.dropWhile (· == 48) ≠ [] := stripped_ne_nil _ hms
    have hs32 : ∀ b ∈ ls.mode.dropWhile (· == 48), b ≠ 32 := by
      intro b hb
      have := hmd b (mem_dropWhile_zero _ _ hb)
      omega
    have hs0 : ∀ b ∈ ls.mode.dropWhile (· == 48), b ≠ 0 := by
      intro b hb
      have := hmd b (mem_dropWhile_zero _ _ hb)
      omega
    have hn0 : ∀ b ∈ ls.name, b ≠ 0 := fun b hb => (hnok b hb).2
    have hpe : ((ls :: rest).map payloadEntry).flatten =
        (ls.mode.dropWhile (· == 48)) ++ 32 ::
          (ls.name ++ 0 :: (d ++ (rest.map payloadEntry).flatten)) := by
      simp only [List.map_cons, List.flatten_cons, payloadEntry, hdec,
        Option.getD_some, List.append_assoc, List.cons_append]
    rw [hpe] at hlen ⊢
    have hlenpe : (ls.mode.dropWhile (· == 48)).length + 1 +
        (ls.name.length + 1 + (d.length + ((rest.map payloadEntry).flatten).length)) =
        ((ls.mode.dropWhile (· == 48)) ++ 32 ::
          (ls.name ++ 0 :: (d ++ (rest.map payloadEntry).flatten))).length := by
      simp [List.length_append]
      omega
    cases fuel with
    | zero => omega
    | succ f =>
      rw [frameSplit_step f _ _ _ _ hsne hs32 hs0 hn0 hd20]
      rw [ih f (fun l2 h2 => hg l2 (by simp [h2])) (by
        rw [← hlenpe] at hlen
        have hsl : 0 < (ls.mode.dropWhile (· == 48)).length := by
          cases hx : (ls.mode.dropWhile (· == 48)) with
          | nil => exact absurd hx hsne
          | cons a l => simp
        omega)]
      simp only [List.map_cons, rawOf, hdec, Option.getD_some]


theorem notWs_ge48 (b : Nat) (h : 48 ≤ b) : isWsB b = false := by
  simp only [isWsB, Bool.or_eq_false_iff, beq_eq_false_iff_ne, ne_eq]
  omega

theorem ne10_of_notWs (b : Nat) (h : isWsB b = false) : b ≠ 10 := by
  intro hb
  rw [hb] at h
  simp [isWsB] at h

theorem hexB_ge48 (b : Nat) (h : isLowerHexDigitB b = true) : 48 ≤ b := by
  simp only [isLowerHexDigitB, Bool.or_eq_true, Bool.and_eq_true,
    decide_eq_true_eq] at h
  omega

theorem renderLine_eq_body (ls : LineSpec) :
    renderLine ls = renderLineBody ls ++ [10] := by
  simp [renderLine, renderLineBody]

theorem buildTreeData_lines (store : Store) :
    ∀ (lines : List LineSpec), (∀ ls ∈ lines, goodLine store ls) →
    buildTreeData (lines.map renderLineBody ++ [[]]) =
      .ok ((lines.map payloadEntry).flatten) := by
  intro lines
  induction lines with
  | nil => intro _; rfl
  | cons ls rest ih =>
    intro hg
    obtain ⟨hm6, hmd, hms, hh40, hhhex, hnne, hnok, hobj, hkind, hkne, hkok⟩ :=
      hg ls (by simp)
    obtain ⟨d, hdec, henc, hdlen⟩ := hex_roundtrip ls.hash hhhex (by rw [hh40])
    have hmne : ls.mode ≠ [] := by
      intro hc
      rw [hc] at hm6
      simp at hm6
    have hmws : ∀ b ∈ ls.mode, isWsB b = false :=
      fun b hb => notWs_ge48 b (hmd b hb).1
    have hhne : ls.hash ≠ [] := by
      intro hc
      rw [hc] at hh40
      simp at hh40
    have hhws : ∀ b ∈ ls.hash, isWsB b = false :=
      fun b hb => notWs_ge48 b (hexB_ge48 b (hhhex b hb))
    have hnws : ∀ b ∈ ls.name, isWsB b = false := fun b hb => (hnok b hb).1
    have hbody : renderLineBody ls ≠ [] := by
      rw [renderLineBody]
      intro hc
      simp at hc
    have hfields : fieldsAscii (renderLineBody ls) = [ls.mode, ls.kind, ls.hash, ls.name] := by
      rw [renderLineBody]
      exact fieldsAscii_line _ _ _ _ hmne hmws hkne hkok hhne hhws hnne hnws
    rw [List.map_cons, List.cons_append, buildTreeData, if_neg hbody, hfields]
    simp only [List.length_cons, List.length_nil]
    rw [if_neg (by omega)]
    simp only [List.getD_cons_succ, List.getD_cons_zero, hdec]
    rw [ih (fun l2 h2 => hg l2 (by simp [h2]))]
    simp only [List.map_cons, List.flatten_cons, payloadEntry, hdec,
      Option.getD_some, List.append_assoc, List.cons_append]


theorem firstBad_good (store : Store) :
    ∀ (lines : List LineSpec), (∀ ls ∈ lines, goodLine store ls) →
    firstBad store (lines.map rawOf) = none := by
  intro lines
  induction lines with
  | nil => intro _; rfl
  | cons ls rest ih =>
    intro hg
    obtain ⟨hm6, hmd, hms, hh40, hhhex, hnne, hnok, hobj, hkind, hkne, hkok⟩ :=
      hg ls (by simp)
    obtain ⟨d, hdec, henc, hdlen⟩ := hex_roundtrip ls.hash hhhex (by rw [hh40])
    rw [List.map_cons, firstBad]
    rw [if_neg (by
      simp only [rawOf]
      omega)]
    simp only [rawOf, hdec, Option.getD_some, henc]
    obtain ⟨obj, hobjeq⟩ := Option.isSome_iff_exists.mp hobj
    rw [hobjeq]
    exact ih (fun l2 h2 => hg l2 (by simp [h2]))

theorem sortEntries_sorted :
    ∀ (l : List TreeEntry),
    List.Chain' (fun a b => byteLt b.name a.name = false) l →
    sortEntries l = l := by
  intro l
  induction l with
  | nil => intro _; rfl
  | cons e es ih =>
    intro hc
    rw [sortEntries, ih (List.Chain'.tail hc)]
    cases es with
    | nil => rfl
    | cons x xs =>
      rw [insertEntry, if_neg ?_]
      have := List.chain'_cons.mp hc
      rw [this.1]
      simp

theorem replicate_pad (mo : Bytes) (h6 : mo.length = 6) :
    List.replicate (6 - (mo.dropWhile (· == 48)).length) 48 ++
      mo.dropWhile (· == 48) = mo := by
  have htw : mo.takeWhile (· == 48) =
      List.replicate (mo.takeWhile (· == 48)).length 48 := by
    rw [List.eq_replicate_iff]
    refine ⟨rfl, ?_⟩
    intro b hb
    have := List.mem_takeWhile_imp hb
    simpa using this
  have hlen48 : (mo.takeWhile (· == 48)).length =
      6 - (mo.dropWhile (· == 48)).length := by
    have hsum := congrArg List.length (List.takeWhile_append_dropWhile (p := (· == 48)) (l := mo))
    rw [List.length_append, h6] at hsum
    omega
  conv_rhs => rw [← List.takeWhile_append_dropWhile (p := (· == 48)) (l := mo)]
  rw [htw, hlen48]

theorem printEntry_good (store : Store) (ls : LineSpec) (hg : goodLine store ls) :
    printEntry (mkEntry store (rawOf ls)) = renderLine ls := by
  obtain ⟨hm6, hmd, hms, hh40, hhhex, hnne, hnok, hobj, hkind, hkne, hkok⟩ := hg
  obtain ⟨d, hdec, henc, hdlen⟩ := hex_roundtrip ls.hash hhhex (by rw [hh40])
  rw [mkEntry, printEntry]
  simp only [rawOf, hdec, Option.getD_some, henc]
  rw [renderLine, ← hkind, replicate_pad ls.mode hm6]


theorem splitSep_renderSpec (store : Store) (lines : List LineSpec)
    (hg : ∀ ls ∈ lines, goodLine store ls) :
    splitSep 10 (renderSpec lines) = lines.map renderLineBody ++ [[]] := by
  have hmap : lines.map renderLine = (lines.map renderLineBody).map (· ++ [10]) := by
    rw [List.map_map]
    exact List.map_congr_left (fun ls _ => renderLine_eq_body ls)
  rw [renderSpec, hmap]
  apply splitSep_flatten
  intro l hl
  obtain ⟨ls, hls, rfl⟩ := List.mem_map.mp hl
  obtain ⟨hm6, hmd, hms, hh40, hhhex, hnne, hnok, hobj, hkind, hkne, hkok⟩ :=
    hg ls hls
  rw [renderLineBody]
  intro hmem
  rcases List.mem_append.mp hmem with h | h
  · rcases List.mem_append.mp h with h | h
    · rcases List.mem_append.mp h with h | h
      · exact absurd ((hmd 10 h).1) (by omega)
      · rcases List.mem_cons.mp h with h | h
        · omega
        · exact ne10_of_notWs 10 (hkok 10 h) rfl
    · rcases List.mem_cons.mp h with h | h
      · omega
      · exact absurd (hexB_ge48 10 (hhhex 10 h)) (by omega)
  · rcases List.mem_cons.mp h with h | h
    · omega
    · exact ne10_of_notWs 10 ((hnok 10 h).1) rfl

/-- **C2 (amended).**  For every tree text specification whose lines are
name-ascending and `goodLine`: 6-digit zero-padded modes whose
zero-stripped form keeps 5 or 6 digits, 40-digit lowercase hex hashes
resolving in the store to objects whose type equals the line's kind field,
and nonempty whitespace- and NUL-free kind and name fields — building the
tree with `NewTreeFromInput` succeeds and `Print` reproduces the input
byte-for-byte.  (The original claim is refuted by
`c2_counterexample_kind_mismatch`: a line whose kind field contradicts the
stored object's type satisfies the claim's stated preconditions but does
not round-trip.) -/
theorem c2_amended_roundtrip (store : Store) (lines : List LineSpec)
    (hg : ∀ ls ∈ lines, goodLine store ls)
    (hsorted : List.Chain' (fun a b => byteLt b.name a.name = false) lines) :
    ∃ t, NewTreeFromInput store (renderSpec lines) = .ok t ∧
      printTree t = renderSpec lines := by
  have hbuild : buildTreeData (splitSep 10 (renderSpec lines)) =
      .ok ((lines.map payloadEntry).flatten) := by
    rw [splitSep_renderSpec store lines hg]
    exact buildTreeData_lines store lines hg
  have hframe := frameSplit_payload store lines
    (((lines.map payloadEntry).flatten).length + 1) hg (by omega)
  have hchar := c3_parse_characterization store ((lines.map payloadEntry).flatten)
    (lines.map rawOf) hframe
  have hfb := firstBad_good store lines hg
  have hparse : ParseData store ((lines.map payloadEntry).flatten) =
      .ok (sortEntries ((lines.map rawOf).map (mkEntry store))) := by
    rw [hchar.1, hfb]
  have hsorted2 : List.Chain' (fun a b => byteLt b.name a.name = false)
      ((lines.map rawOf).map (mkEntry store)) := by
    rw [List.map_map]
    rw [List.chain'_map]
    refine List.Chain'.imp ?_ hsorted
    intro a b hab
    simpa [mkEntry, rawOf] using hab
  have hsort : sortEntries ((lines.map rawOf).map (mkEntry store)) =
      (lines.map rawOf).map (mkEntry store) := sortEntries_sorted _ hsorted2
  refine ⟨{ Obj := NewObject "tree" ((lines.map payloadEntry).flatten),
            Entries := (lines.map rawOf).map (mkEntry store) }, ?_, ?_⟩
  · rw [NewTreeFromInput, hbuild]
    simp [NewTree, NewObject, hparse, hsort]
    rw [← List.map_map]
    exact hsort
  · rw [printTree]
    simp only [List.map_map]
    rw [renderSpec]
    congr 1
    exact List.map_congr_left (fun ls hls => printEntry_good store ls (hg ls hls))


/-- **C2 counterexample.**  The input naming the stored blob with kind
field `tree` is a single sorted line with a zero-padded 6-digit mode whose
hash exists in the store, yet printing the built tree yields the `blob`
line, not the input. -/
theorem c2_counterexample_kind_mismatch :
    NewTreeFromInput testStore (renderSpec [c2BadLine]) = .ok testTree ∧
    printTree testTree ≠ renderSpec [c2BadLine] ∧
    (findObj testStore c2BadLine.hash).isSome = true := by
  refine ⟨rfl, by decide, by decide⟩

/-- **C2 witness.**  The test scenario's single-line specification
round-trips. -/
theorem c2_amended_roundtrip_witness :
    ∃ t, NewTreeFromInput testStore (renderSpec [c2GoodLine]) = .ok t ∧
      printTree t = renderSpec [c2GoodLine] :=
  c2_amended_roundtrip testStore [c2GoodLine]
    (by
      intro ls hls
      simp only [List.mem_singleton] at hls
      subst hls
      unfold goodLine
      decide)
    (by simp)

/-- **C3 counterexample.**  The one-byte payload `"A"` has no space, so the
Go loop's `data[0:spaceInd]` slice with `spaceInd = -1` is an out-of-range
panic (`.oob`), not a returned typed error. -/
theorem c3_untyped_oob_on_bad_framing :
    ParseData [] [65] = .error .oob := by
  rfl

/-- **C3 witness.**  The test tree's 36-byte payload is well-framed and
parses completely against the test store. -/
theorem c3_parse_characterization_witness :
    frameSplit (testTree.Obj.ObjData.length + 1) testTree.Obj.ObjData =
      some [testRaw] ∧
    (ParseData testStore testTree.Obj.ObjData =
      (match firstBad testStore [testRaw] with
       | some e => .error e
       | none => .ok (sortEntries ([testRaw].map (mkEntry testStore)))) ∧
     ParseData testStore testTree.Obj.ObjData ≠ .error .oob) :=
  ⟨by decide, c3_parse_characterization testStore _ [testRaw] (by decide)⟩


theorem pathUnder_refl (p : Path) : pathUnder p p := ⟨[], by simp⟩

theorem pathUnder_length {p q : Path} (h : pathUnder p q) : p.length ≤ q.length := by
  obtain ⟨r, rfl⟩ := h
  simp

theorem pathUnder_extend {p : Path} {x : Bytes} {q : Path}
    (h : pathUnder (p ++ [x]) q) : pathUnder p q := by
  obtain ⟨r, rfl⟩ := h
  exact ⟨[x] ++ r, by simp⟩

theorem not_pathUnder_self_extend (p : Path) (x : Bytes) :
    ¬ pathUnder (p ++ [x]) p := by
  intro h
  have := pathUnder_length h
  simp at this

theorem pathUnder_singleton_inj {p : Path} {a b : Bytes} {q : Path}
    (ha : pathUnder (p ++ [a]) q) (hb : pathUnder (p ++ [b]) q) : a = b := by
  obtain ⟨r1, hr1⟩ := ha
  obtain ⟨r2, hr2⟩ := hb
  rw [hr2] at hr1
  rw [List.append_assoc, List.append_assoc] at hr1
  have := List.append_cancel_left hr1.symm
  simp at this
  exact this.1

theorem mkdirFS_ok {fs : FS} {p : Path} {fs' : FS}
    (h : mkdirFS fs p = .ok fs') : fs' = (p, .dir) :: fs := by
  rw [mkdirFS] at h
  cases hl : lookupFS fs p with
  | some n => rw [hl] at h; cases h
  | none =>
    rw [hl] at h
    by_cases hc : p ≠ [] ∧ lookupFS fs p.dropLast = some .dir
    · rw [if_pos hc] at h
      injection h with h
      exact h.symm
    · rw [if_neg hc] at h
      cases h

theorem writeFileFS_ok {fs : FS} {p : Path} {data : Bytes} {perm : Nat} {fs' : FS}
    (h : writeFileFS fs p data perm = .ok fs') :
    ∃ n, fs' = (p, n) :: fs := by
  rw [writeFileFS] at h
  cases hl : lookupFS fs p with
  | some n =>
    cases n with
    | dir => rw [hl] at h; cases h
    | file d0 p0 =>
      rw [hl] at h
      injection h with h
      exact ⟨.file data p0, h.symm⟩
  | none =>
    rw [hl] at h
    by_cases hc : p ≠ [] ∧ lookupFS fs p.dropLast = some .dir
    · rw [if_pos hc] at h
      injection h with h
      exact ⟨.file data perm, h.symm⟩
    · rw [if_neg hc] at h
      cases h

theorem lookupFS_cons_ne {fs : FS} {p q : Path} {n : FsNode} (h : p ≠ q) :
    lookupFS ((p, n) :: fs) q = lookupFS fs q := by
  rw [lookupFS, if_neg h]


theorem checkoutLoop_confined (fuel : Nat) : ∀ (store : Store) (path : Path)
    (fs : FS) (entries : List TreeEntry) (q : Path),
    (∀ e ∈ entries, ¬ pathUnder (path ++ [e.name]) q) →
    lookupFS (fsOf (checkoutLoop fuel store path fs entries)) q = lookupFS fs q := by
  induction fuel with
  | zero => intro store path fs entries q _; rfl
  | succ fuel ih =>
    intro store path fs entries q h
    cases entries with
    | nil => rfl
    | cons e rest =>
      have hq := h e (by simp)
      have hqr : ∀ e' ∈ rest, ¬ pathUnder (path ++ [e'.name]) q :=
        fun e' h' => h e' (by simp [h'])
      have hne : path ++ [e.name] ≠ q := fun hc => hq (hc ▸ pathUnder_refl _)
      simp only [checkoutLoop]
      cases hop : objectParse store e.hash with
      | error err => rfl
      | ok obj =>
        dsimp only
        by_cases ht : e.objType = "tree"
        · rw [if_pos ht]
          cases hmk : mkdirFS fs (path ++ [e.name]) with
          | error err => rfl
          | ok fs1 =>
            dsimp only
            have hfs1 := mkdirFS_ok hmk
            have hl1 : lookupFS fs1 q = lookupFS fs q := by
              rw [hfs1]
              exact lookupFS_cons_ne hne
            cases hnt : NewTree store obj with
            | error err => exact hl1
            | ok sub =>
              dsimp only
              have hsubconf := ih store (path ++ [e.name]) fs1 sub.Entries q
                (fun e' _ => fun hc => hq (pathUnder_extend hc))
              cases hsub : checkoutLoop fuel store (path ++ [e.name]) fs1 sub.Entries with
              | error r =>
                dsimp only
                rw [hsub] at hsubconf
                exact hsubconf.trans hl1
              | ok fs2 =>
                dsimp only
                rw [hsub] at hsubconf
                have hrest := ih store path fs2 rest q hqr
                exact hrest.trans (hsubconf.trans hl1)
        · rw [if_neg ht]
          cases hnb : NewBlob obj with
          | error err => rfl
          | ok blob =>
            dsimp only
            cases hwf : writeFileFS fs (path ++ [e.name]) blob.Obj.ObjData
                (octParseGo (e.mode.drop 3)) with
            | error err => rfl
            | ok fs1 =>
              dsimp only
              obtain ⟨n, hfs1⟩ := writeFileFS_ok hwf
              have hl1 : lookupFS fs1 q = lookupFS fs q := by
                rw [hfs1]
                exact lookupFS_cons_ne hne
              have hrest := ih store path fs1 rest q hqr
              exact hrest.trans hl1


theorem octFold_lt : ∀ (l : Bytes) (v : Nat),
    (∀ b ∈ l, 48 ≤ b ∧ b ≤ 55) →
    l.foldl (fun v b => v * 8 + (b - 48)) v < (v + 1) * 8 ^ l.length := by
  intro l
  induction l with
  | nil => intro v _; simp
  | cons b rest ih =>
    intro v h
    have hb := h b (by simp)
    have := ih (v * 8 + (b - 48)) (fun c hc => h c (by simp [hc]))
    rw [List.foldl_cons, List.length_cons]
    calc List.foldl (fun v b => v * 8 + (b - 48)) (v * 8 + (b - 48)) rest
        < (v * 8 + (b - 48) + 1) * 8 ^ rest.length := this
      _ ≤ (v + 1) * 8 ^ (rest.length + 1) := by
          have h1 : v * 8 + (b - 48) + 1 ≤ (v + 1) * 8 := by omega
          calc (v * 8 + (b - 48) + 1) * 8 ^ rest.length
              ≤ (v + 1) * 8 * 8 ^ rest.length := Nat.mul_le_mul_right _ h1
            _ = (v + 1) * 8 ^ (rest.length + 1) := by ring


theorem octParseGo_lt (l : Bytes) (h : l.length ≤ 3) : octParseGo l < 512 := by
  rw [octParseGo]
  by_cases hc : l ≠ [] ∧ l.all (fun b => 48 ≤ b && b ≤ 55) = true
  · rw [if_pos hc]
    have hall : ∀ b ∈ l, 48 ≤ b ∧ b ≤ 55 := by
      intro b hb
      have := List.all_eq_true.mp hc.2 b hb
      simpa using this
    have := octFold_lt l 0 hall
    have hpow : (8 : Nat) ^ l.length ≤ 8 ^ 3 := Nat.pow_le_pow_right (by omega) h
    calc l.foldl (fun v b => v * 8 + (b - 48)) 0 < 1 * 8 ^ l.length := by simpa using this
      _ ≤ 512 := by
          have : (8 : Nat) ^ 3 = 512 := by norm_num
          omega
  · rw [if_neg hc]
    omega


theorem checkoutLoop_mat (fuel : Nat) : ∀ (store : Store) (path : Path)
    (fs : FS) (entries : List TreeEntry) (fs' : FS),
    lookupFS fs path = some .dir →
    (∀ e ∈ entries, ∀ q, pathUnder (path ++ [e.name]) q → lookupFS fs q = none) →
    List.Pairwise (fun a b => a.name ≠ b.name) entries →
    (∀ e ∈ entries, e.mode.length ≤ 6) →
    checkoutLoop fuel store path fs entries = .ok fs' →
    ∀ e ∈ entries, matEntry store fs' path e := by
  induction fuel with
  | zero => intro store path fs entries fs' _ _ _ _ hrun e he; cases hrun
  | succ fuel ih =>
    intro store path fs entries fs' hdir hfresh hpair hmodes hrun
    cases entries with
    | nil => intro e he; cases he
    | cons e rest =>
      have hfr := hfresh e (by simp)
      have hcpfresh : lookupFS fs (path ++ [e.name]) = none :=
        hfr (path ++ [e.name]) (pathUnder_refl _)
      have hcp_ne_path : path ++ [e.name] ≠ path := by
        intro hc
        have := congrArg List.length hc
        simp at this
      simp only [checkoutLoop] at hrun
      cases hop : objectParse store e.hash with
      | error err => rw [hop] at hrun; cases hrun
      | ok obj =>
        rw [hop] at hrun
        dsimp only at hrun
        by_cases ht : e.objType = "tree"
        · rw [if_pos ht] at hrun
          cases hmk : mkdirFS fs (path ++ [e.name]) with
          | error err => rw [hmk] at hrun; cases hrun
          | ok fs1 =>
            rw [hmk] at hrun
            dsimp only at hrun
            have hfs1 := mkdirFS_ok hmk
            cases hnt : NewTree store obj with
            | error err => rw [hnt] at hrun; cases hrun
            | ok sub =>
              rw [hnt] at hrun
              dsimp only at hrun
              cases hsub : checkoutLoop fuel store (path ++ [e.name]) fs1 sub.Entries with
              | error r => rw [hsub] at hrun; cases hrun
              | ok fs2 =>
                rw [hsub] at hrun
                dsimp only at hrun
                -- fs2 facts via confinement of the subtree call
                have hconf2 : ∀ q, (∀ e' ∈ sub.Entries,
                    ¬ pathUnder ((path ++ [e.name]) ++ [e'.name]) q) →
                    lookupFS fs2 q = lookupFS fs1 q := by
                  intro q hq
                  have := checkoutLoop_confined fuel store (path ++ [e.name]) fs1
                    sub.Entries q hq
                  rw [hsub] at this
                  exact this
                have hl2cp : lookupFS fs2 (path ++ [e.name]) = some .dir := by
                  rw [hconf2 (path ++ [e.name])
                    (fun e' _ => not_pathUnder_self_extend _ _), hfs1, lookupFS, if_pos rfl]
                have hl2path : lookupFS fs2 path = some .dir := by
                  rw [hconf2 path (fun e' _ hc => by
                    have := pathUnder_length hc
                    simp at this)]
                  rw [hfs1, lookupFS_cons_ne hcp_ne_path]
                  exact hdir
                -- the rest loop leaves path/e.name alone
                have hconf3 : ∀ q, (∀ e' ∈ rest, ¬ pathUnder (path ++ [e'.name]) q) →
                    lookupFS fs' q = lookupFS fs2 q := by
                  intro q hq
                  have := checkoutLoop_confined fuel store path fs2 rest q hq
                  rw [hrun] at this
                  exact this
                have hind : ∀ e' ∈ rest, e'.name ≠ e.name := by
                  intro e' he'
                  have := (List.pairwise_cons.mp hpair).1 e' he'
                  exact fun hc => this hc.symm
                intro e2 he2
                rcases List.mem_cons.mp he2 with he2 | he2
                · subst he2
                  rw [matEntry, if_pos ht]
                  rw [hconf3 (path ++ [e2.name]) (fun e' he' hc =>
                    hind e' he' (pathUnder_singleton_inj hc (pathUnder_refl _)))]
                  exact hl2cp
                · -- apply ih to the rest loop
                  refine ih store path fs2 rest fs' hl2path ?_ (List.Pairwise.of_cons hpair)
                    (fun e' h' => hmodes e' (by simp [h'])) hrun e2 he2
                  intro e' he' q hq
                  have hne' : e'.name ≠ e.name := hind e' he'
                  have h1 : lookupFS fs q = none :=
                    hfresh e' (by simp [he']) q hq
                  have h2 : lookupFS fs1 q = none := by
                    rw [hfs1, lookupFS_cons_ne ?_]
                    · exact h1
                    · intro hc
                      have hq2 : pathUnder (path ++ [e.name]) q :=
                        ⟨[], by rw [List.append_nil]; exact hc.symm⟩
                      exact hne' (pathUnder_singleton_inj hq hq2)

                  rw [hconf2 q (fun e'' _ hc => by
                    have hc2 := pathUnder_extend hc
                    exact hne' (pathUnder_singleton_inj hq hc2))]
                  exact h2
        · rw [if_neg ht] at hrun
          cases hnb : NewBlob obj with
          | error err => rw [hnb] at hrun; cases hrun
          | ok blob =>
            rw [hnb] at hrun
            dsimp only at hrun
            cases hwf : writeFileFS fs (path ++ [e.name]) blob.Obj.ObjData
                (octParseGo (e.mode.drop 3)) with
            | error err => rw [hwf] at hrun; cases hrun
            | ok fs1 =>
              rw [hwf] at hrun
              dsimp only at hrun
              -- the write created the file fresh with the computed mode
              have hfs1 : fs1 = (path ++ [e.name],
                  .file blob.Obj.ObjData (octParseGo (e.mode.drop 3))) :: fs := by
                rw [writeFileFS, hcpfresh] at hwf
                rw [if_pos ?_] at hwf
                · injection hwf with h
                  exact h.symm
                · constructor
                  · simp
                  · rw [List.dropLast_concat]
                    exact hdir
              have hblob : blob.Obj = obj := by
                rw [NewBlob] at hnb
                by_cases hbt : obj.ObjType ≠ "blob"
                · rw [if_pos hbt] at hnb; cases hnb
                · rw [if_neg hbt] at hnb
                  injection hnb with h
                  rw [← h]
              have hl1path : lookupFS fs1 path = some .dir := by
                rw [hfs1, lookupFS_cons_ne hcp_ne_path]
                exact hdir
              have hconf3 : ∀ q, (∀ e' ∈ rest, ¬ pathUnder (path ++ [e'.name]) q) →
                  lookupFS fs' q = lookupFS fs1 q := by
                intro q hq
                have := checkoutLoop_confined fuel store path fs1 rest q hq
                rw [hrun] at this
                exact this
              have hind : ∀ e' ∈ rest, e'.name ≠ e.name := by
                intro e' he'
                have := (List.pairwise_cons.mp hpair).1 e' he'
                exact fun hc => this hc.symm
              intro e2 he2
              rcases List.mem_cons.mp he2 with he2 | he2
              · subst he2
                rw [matEntry, if_neg ht]
                refine ⟨obj, hop, ?_⟩
                rw [hconf3 (path ++ [e2.name]) (fun e' he' hc =>
                  hind e' he' (pathUnder_singleton_inj hc (pathUnder_refl _)))]
                rw [hfs1, lookupFS, if_pos rfl, hblob]
                have hlt : octParseGo (e2.mode.drop 3) < 512 := by
                  apply octParseGo_lt
                  have := hmodes e2 (by simp)
                  simp only [List.length_drop]
                  omega
                rw [Nat.mod_eq_of_lt hlt]
              · refine ih store path fs1 rest fs' hl1path ?_ (List.Pairwise.of_cons hpair)
                  (fun e' h' => hmodes e' (by simp [h'])) hrun e2 he2
                intro e' he' q hq
                have hne' : e'.name ≠ e.name := hind e' he'
                rw [hfs1, lookupFS_cons_ne ?_]
                · exact hfresh e' (by simp [he']) q hq
                · intro hc
                  have hq2 : pathUnder (path ++ [e.name]) q :=
                    ⟨[], by rw [List.append_nil]; exact hc.symm⟩
                  exact hne' (pathUnder_singleton_inj hq hq2)


/-- **C7.**  Into a fresh target directory, a successful `Checkout`
materializes every entry at `targetPath/name`: a tree entry has become a
created directory (and the definition recurses into it), any other entry a
file holding the blob's exact stored bytes whose permission mode is the low
9 bits of the octal mode text after stripping the 3-character type marker;
and, as the bundled concrete abort scenario shows, the first I/O failure
(here a duplicate-name `Mkdir`) aborts the whole checkout returning the
error while the file already written stays on disk un-cleaned and the
entries after the failure are never materialized. -/
theorem c7_checkout_materializes (fuel : Nat) (store : Store) (tree : GitTree)
    (path : Path) (fs : FS)
    (hdir : lookupFS fs path = some .dir)
    (hfresh : ∀ e ∈ tree.Entries, ∀ q, pathUnder (path ++ [e.name]) q →
      lookupFS fs q = none)
    (hpair : List.Pairwise (fun a b => a.name ≠ b.name) tree.Entries)
    (_hvalid : ∀ e ∈ tree.Entries, validName e.name)
    (hmodes : ∀ e ∈ tree.Entries, e.mode.length ≤ 6) :
    (∀ fs', Checkout fuel store tree path fs = .ok fs' →
      ∀ e ∈ tree.Entries, matEntry store fs' path e) ∧
    (Checkout 3 demoStore demoTree demoPath demoFS = .error (.ioErr, demoFS1) ∧
     lookupFS demoFS1 (demoPath ++ [bytesOfAscii "a"]) =
       some (.file demoBlob.ObjData 420) ∧
     lookupFS demoFS1 (demoPath ++ [bytesOfAscii "c"]) = none) := by
  refine ⟨?_, by rfl, by rfl, by rfl⟩
  intro fs' hrun
  exact checkoutLoop_mat fuel store path fs tree.Entries fs' hdir hfresh hpair
    hmodes hrun

/-- **C7 witness.**  The test scenario: checking out the test tree into a
fresh `dst` directory. -/
theorem c7_checkout_materializes_witness :
    (∀ fs', Checkout 2 testStore testTree demoDst demoDstFS = .ok fs' →
      ∀ e ∈ testTree.Entries, matEntry testStore fs' demoDst e) ∧
    (Checkout 3 demoStore demoTree demoPath demoFS = .error (.ioErr, demoFS1) ∧
     lookupFS demoFS1 (demoPath ++ [bytesOfAscii "a"]) =
       some (.file demoBlob.ObjData 420) ∧
     lookupFS demoFS1 (demoPath ++ [bytesOfAscii "c"]) = none) :=
  c7_checkout_materializes 2 testStore testTree demoDst demoDstFS
    (by rfl)
    (by
      intro e he q hq
      obtain ⟨r, hr⟩ := hq
      subst hr
      simp only [demoDstFS]
      rw [lookupFS, if_neg ?_]
      · rfl
      · intro hc
        have := congrArg List.length hc
        simp at this)
    (by simp [testTree])
    (by
      intro e he
      simp only [testTree, List.mem_singleton] at he
      subst he
      unfold validName
      decide)
    (by
      intro e he
      simp only [testTree, List.mem_singleton] at he
      subst he
      decide)

end Gogit
